import Mathlib

/-!
Verification of the openGemini data-migration tool (TSM → openGemini).

This file is a shallow embedding of the migration pipeline:
* `sortAndDeduplicateValues`, `Cursor.readBlock`, `Cursor.next` (src/cursor.go)
* the location planner `locations` and the series-key parser
  `splitMeasurementAndTag` / `unescapeTag` (migrator file)
* `validate` (src/dataMigrate.go), `Scanner.writeBatches`,
  `Scanner.retryWrite`, `Scanner.nextPoint` with the `container/heap`
  algorithms it relies on.

Timestamps are modelled as unbounded `Int`; where the Go code's int64
wrap-around matters (the `st-1 < st` guard in the planner) the wrap is
made explicit.  Values carry an abstract `payload : Int` that stands for
the typed scalar; none of the verified code inspects payloads.
-/

namespace DataMigrate

/-- A TSM value: a timestamp (`UnixNano`) plus an opaque payload standing
for the typed scalar.  The payload lets distinct writes at the same
timestamp be told apart. -/
structure Value where
  ts : Int
  payload : Int
deriving Repr, DecidableEq

/-- Comparator used by the buffer sort in `sortAndDeduplicateValues`
(`(*buf)[i].UnixNano() < (*buf)[j].UnixNano()` — a strict `<` handed to
Go's `sort.Slice`, whose output is therefore nondecreasing in `ts`). -/
def tsLE (a b : Value) : Prop := a.ts ≤ b.ts

instance : DecidableRel tsLE := fun a b => inferInstanceAs (Decidable (a.ts ≤ b.ts))

instance : IsTotal Value tsLE := ⟨fun a b => Int.le_total a.ts b.ts⟩

instance : IsTrans Value tsLE := ⟨fun _ _ _ h h' => le_trans h h'⟩

/-- A timestamp-nondecreasing list: the guarantee Go's `sort.Slice`
contract gives for the buffer (any permutation ordered by the `<`
comparator; stability is NOT guaranteed by `sort.Slice`). -/
def SortedTs (l : List Value) : Prop := l.Pairwise tsLE

instance : DecidablePred SortedTs := fun l =>
  inferInstanceAs (Decidable (l.Pairwise tsLE))

/-- The deterministic sort used by this model for the buffer sort in
`sortAndDeduplicateValues`.  Go's `sort.Slice` promises only *some*
timestamp-ordered permutation; we pick insertion sort (which is in
addition stable).  Lemmas that depend only on the `sort.Slice` contract
are stated over an arbitrary sorted permutation instead. -/
def sortValues (l : List Value) : List Value := l.insertionSort tsLE

/-- The index loop of `sortAndDeduplicateValues` (src/cursor.go:236-244):
`i` points at the current run's slot; each `j` with a new timestamp
finalises the slot, each `j` with the same timestamp overwrites it.  So
each run of equal timestamps collapses to its *last* element, in the
order the sorted buffer presents them. -/
def dedupGo : Value → List Value → List Value
  | cur, [] => [cur]
  | cur, v :: rest => if v.ts ≠ cur.ts then cur :: dedupGo v rest else dedupGo v rest

/-- Collapse equal-timestamp runs keeping the last element of each run
(the semantics of the `i`/`j` loop in `sortAndDeduplicateValues`). -/
def dedupKeepLast : List Value → List Value
  | [] => []
  | v :: rest => dedupGo v rest

/-- `sortAndDeduplicateValues` (src/cursor.go:228-245): `nil` on an empty
buffer, otherwise sort by timestamp and collapse duplicate timestamps
keeping the last occurrence of each run. -/
def sortAndDeduplicateValues (buf : List Value) : Option (List Value) :=
  if buf.isEmpty then none
  else some (dedupKeepLast (sortValues buf))

/-- The relational contract of `sortAndDeduplicateValues` on a nonempty
buffer: Go's `sort.Slice` yields *some* timestamp-sorted permutation
`mid` of the buffer (stability is explicitly not guaranteed by its
documentation), and the dedup loop then collapses `mid`. -/
def SortDedupRel (buf out : List Value) : Prop :=
  ∃ mid : List Value, mid.Perm buf ∧ SortedTs mid ∧ out = dedupKeepLast mid

/-- `mid` is a *stable* sort of `buf`: elements sharing a timestamp keep
their relative order from `buf`. -/
def StableFor (buf mid : List Value) : Prop :=
  ∀ t : Int, mid.filter (fun v => v.ts = t) = buf.filter (fun v => v.ts = t)

-- ==================================================================
-- Block cursor (src/cursor.go)
-- ==================================================================
/-- A TSM index entry restricted to what the cursor consults. -/
structure IndexEntry where
  minTime : Int
  maxTime : Int
deriving Repr, DecidableEq

/-- A `location` (src/cursor.go:28-33): one block of one TSM file plus the
`readMax` watermark.  `values` is the decoded block that
`r.ReadAt(&e.entry, nil)` would return, and `tombstones` the file's
`TombstoneRange` for the cursor's key. -/
structure Location where
  entry : IndexEntry
  readMax : Int
  values : List Value
  tombstones : List (Int × Int)
deriving Repr, DecidableEq

/-- The scalar state of a `Cursor` that `readBlock` manipulates
(`et`, `readTs`, `seeks`); the buffer/position pair is layered on top in
`Cursor`. -/
structure CState where
  et : Int
  readTs : Int
  seeks : List Location
deriving Repr, DecidableEq

/-- The per-location value loop of `readBlock` (src/cursor.go:153-167):
values with `ts ≤ readTs` are skipped (`continue`), the first value with
`ts > upperBound` stops the scan (`break`), every other value is
appended.  The tombstone loop in the source
(`for _, tomb := range tombstones { if ts > tomb.Min && ts < tomb.Max { continue } }`)
has no effect on which values are kept: its `continue` targets the inner
tombstone loop itself, so the loop always falls through to the append.
The embedding therefore does not consult the tombstones here. -/
def collectVals (readTs ub : Int) : List Value → List Value
  | [] => []
  | v :: rest =>
    if v.ts ≤ readTs then collectVals readTs ub rest
    else if ub < v.ts then []
    else v :: collectVals readTs ub rest

/-- The per-location value filter the spec intends (drop values strictly
inside a tombstone range); used to state what the source *fails* to do. -/
def collectValsSpec (readTs ub : Int) (tombstones : List (Int × Int)) :
    List Value → List Value
  | [] => []
  | v :: rest =>
    if v.ts ≤ readTs then collectValsSpec readTs ub tombstones rest
    else if ub < v.ts then []
    else if tombstones.any (fun t => t.1 < v.ts ∧ v.ts < t.2) then
      collectValsSpec readTs ub tombstones rest
    else v :: collectValsSpec readTs ub tombstones rest

/-- `locsToRead` (src/cursor.go:97-105): the head of `seeks` plus every
later location whose `readMax` equals `readTs`. -/
def locsToRead (s : CState) : List Location :=
  match s.seeks with
  | [] => []
  | l0 :: rest => l0 :: rest.filter (fun l => l.readMax = s.readTs)

/-- The first half of the `upperBound` computation
(src/cursor.go:109-114): start from `et` and lower to the smallest
`entry.MaxTime` among the selected locations. -/
def boundFold (s : CState) (ltr : List Location) : Int :=
  ltr.foldl (fun ub e => if e.entry.maxTime < ub then e.entry.maxTime else ub) s.et

/-- `upperBound` (src/cursor.go:107-120): `boundFold`, lowered further to
`seeks[len(locsToRead)].readMax` when unselected locations remain and
that watermark is not larger (src/cursor.go:115-120). -/
def upperBound (s : CState) (ltr : List Location) : Int :=
  match s.seeks.get? ltr.length with
  | some l => if l.readMax ≤ boundFold s ltr then l.readMax else boundFold s ltr
  | none => boundFold s ltr

/-- The pointer writes `e.readMax = upperBound` for `e ∈ locsToRead`
(src/cursor.go:168): position 0 of `seeks` unconditionally, and every
later element whose `readMax` equals `readTs`. -/
def updateSeeks (seeks : List Location) (readTs ub : Int) : List Location :=
  match seeks with
  | [] => []
  | l0 :: rest =>
    { l0 with readMax := ub } ::
      rest.map (fun l => if l.readMax = readTs then { l with readMax := ub } else l)

/-- The drop loop (src/cursor.go:171-178): a location whose `readMax`
reached `et` or its block's `MaxTime` is finished and removed. -/
def dropFinished (et : Int) (seeks : List Location) : List Location :=
  seeks.filter (fun l => l.readMax < et ∧ l.readMax < l.entry.maxTime)

/-- Ordering of locations by watermark (the `sort.Slice` comparator of
the recovery pass). -/
def rmLE (a b : Location) : Prop := a.readMax ≤ b.readMax

instance : DecidableRel rmLE := fun a b => inferInstanceAs (Decidable (a.readMax ≤ b.readMax))

instance : IsTotal Location rmLE := ⟨fun a b => Int.le_total a.readMax b.readMax⟩

instance : IsTrans Location rmLE := ⟨fun _ _ _ h h' => le_trans h h'⟩

/-- Ordering of locations by block start time (the `ascLocations`
comparator used by `Cursor.init`). -/
def mtLE (a b : Location) : Prop := a.entry.minTime ≤ b.entry.minTime

instance : DecidableRel mtLE := fun a b =>
  inferInstanceAs (Decidable (a.entry.minTime ≤ b.entry.minTime))

instance : IsTotal Location mtLE := ⟨fun a b => Int.le_total a.entry.minTime b.entry.minTime⟩

instance : IsTrans Location mtLE := ⟨fun _ _ _ h h' => le_trans h h'⟩

/-- The recovery pass (src/cursor.go:123-141), taken when
`upperBound ≤ readTs`: re-sort `seeks` by `readMax` (the source uses the
unstable `sort.Slice`; this model picks the stable sorted permutation),
clamp every `readMax` below `readTs` up to `readTs`, and drop finished
locations. -/
def recover (s : CState) : CState :=
  let sorted := s.seeks.insertionSort rmLE
  let clamped := sorted.map (fun l =>
    if l.readMax < s.readTs then { l with readMax := s.readTs } else l)
  { s with seeks := dropFinished s.et clamped }

/-- The raw buffer one `readBlock` pass collects: the per-location value
loops over `locsToRead`, appended in selection order
(src/cursor.go:146-167). -/
def bufOf (s : CState) : List Value :=
  (locsToRead s).flatMap (fun l => collectVals s.readTs (upperBound s (locsToRead s)) l.values)

/-- The state after a successful (non-recovery) pass: watermarks of the
selected locations raised to `upperBound`, finished locations dropped,
`readTs` advanced to `upperBound` (src/cursor.go:168-182). -/
def advance (s : CState) : CState :=
  { et := s.et
  , readTs := upperBound s (locsToRead s)
  , seeks := dropFinished s.et (updateSeeks s.seeks s.readTs (upperBound s (locsToRead s))) }

/-- `Cursor.readBlock` (src/cursor.go:84-191).  The self-recursion (the
recovery pass and the empty-buffer pass) is driven by an explicit fuel;
`none` means the fuel ran out (a separate theorem shows a fuel quadratic
in the number of locations suffices from *every* scalar state, so the
fuel is a modelling device, not a semantic one).  `some (none, s)`
is the source's `return nil, nil` (cursor exhausted), and
`some (some buf, s)` a successful refill. -/
def readBlockFuel : Nat → CState → Option (Option (List Value) × CState)
  | 0, _ => none
  | fuel + 1, s =>
    if s.seeks.isEmpty ∨ s.et ≤ s.readTs then some (none, s)
    else if upperBound s (locsToRead s) ≤ s.readTs then
      -- "this should not happen": recovery pass, then retry
      readBlockFuel fuel (recover s)
    else if (bufOf s).isEmpty then readBlockFuel fuel (advance s)
    else some (some (dedupKeepLast (sortValues (bufOf s))), advance s)

/-- A full `Cursor` (src/cursor.go:44-52): scalar state plus the decoded
buffer and read position. -/
structure Cursor where
  st : CState
  buf : List Value
  pos : Nat
deriving Repr, DecidableEq

/-- The location list after `Cursor.init`'s preprocessing
(src/cursor.go:60-65): sort by `entry.MinTime` (the source uses the
unstable `sort.Sort`; the model picks the stable sorted permutation) and
raise every `readMax` to at least `entry.MinTime - 1`. -/
def initClamped (seeks : List Location) : List Location :=
  (seeks.insertionSort mtLE).map
    (fun l => if l.readMax < l.entry.minTime - 1
              then { l with readMax := l.entry.minTime - 1 } else l)

/-- `Cursor.init` (src/cursor.go:54-82): with no locations the cursor is
empty; otherwise preprocess the locations, seed `readTs` from the first
location's watermark and prime the buffer with one `readBlock`. -/
def initCursor (fuel : Nat) (et readTs0 : Int) (seeks : List Location) : Cursor :=
  match initClamped seeks with
  | [] => { st := { et := et, readTs := readTs0, seeks := [] }, buf := [], pos := 0 }
  | l0 :: rest =>
    match readBlockFuel fuel { et := et, readTs := l0.readMax, seeks := l0 :: rest } with
    | some (some buf, s') => { st := s', buf := buf, pos := 0 }
    | some (none, s') => { st := s', buf := [], pos := 0 }
    | none =>
      { st := { et := et, readTs := l0.readMax, seeks := l0 :: rest }, buf := [], pos := 0 }

/-- The `readTs` value that `Cursor.init` seeds (`c.seeks[0].readMax`
after preprocessing; the cursor's original `readTs` if there are no
locations). -/
def initSeedTs (readTs0 : Int) (seeks : List Location) : Int :=
  match initClamped seeks with
  | [] => readTs0
  | l0 :: _ => l0.readMax

/-- `Cursor.next` (src/cursor.go:209-224): serve from the buffer if a
value remains, otherwise refill via `readBlock` and recurse; a `nil`
refill means the cursor is exhausted.  The fuel feeds the refill and the
single recursion. -/
def next : Nat → Cursor → Option Value × Cursor
  | 0, c => (none, c)
  | fuel + 1, c =>
    if h : c.pos < c.buf.length then
      (some (c.buf.get ⟨c.pos, h⟩), { c with pos := c.pos + 1 })
    else
      match readBlockFuel (fuel + 1) c.st with
      | none => (none, c)
      | some (none, s') => (none, { st := s', buf := [], pos := 0 })
      | some (some buf, s') => next fuel { st := s', buf := buf, pos := 0 }

/-- The stream of values produced by `n` successive `next` calls,
stopping at the first `nil` (which is what `Scanner` does). -/
def nextStream : Nat → Nat → Cursor → List Value
  | 0, _, _ => []
  | n + 1, fuel, c =>
    match next fuel c with
    | (none, _) => []
    | (some v, c') => v :: nextStream n fuel c'

-- ------------------------------------------------------------------
-- Per-cursor monotonicity (claims C3/C4)
-- ------------------------------------------------------------------
/-- Invariant tying a cursor to a lower bound `t`: the unread part of
the buffer is strictly sorted, every unread value lies in
`(t, readTs] ∩ (-∞, et]`, and `t ≤ readTs` so refills also stay above
`t`. -/
def CursorAbove (c : Cursor) (t : Int) : Prop :=
  (c.buf.drop c.pos).Pairwise (fun a b => a.ts < b.ts) ∧
  (∀ v ∈ c.buf.drop c.pos, t < v.ts ∧ v.ts ≤ c.st.readTs ∧ v.ts ≤ c.st.et) ∧
  t ≤ c.st.readTs

-- ------------------------------------------------------------------
-- Location planner (migrator `locations`)
-- ------------------------------------------------------------------
/-- A TSM file as the planner sees it for one composite key: the block
index entries (`ReadEntries`) with the decoded block each one denotes,
and the file's tombstones for that key (`TombstoneRange`). -/
structure TSMFile where
  entries : List (IndexEntry × List Value)
  tombstones : List (Int × Int)
deriving Repr, DecidableEq

/-- int64 wrap-around, used to model the Go expression `st-1` inside the
planner's defensive `if st-1 < st` guard. -/
def i64wrap (x : Int) : Int := (x + 2 ^ 63) % 2 ^ 64 - 2 ^ 63

/-- `migrator.locations` (options source, lines 562-610): for each file
and block entry, skip blocks fully covered by a tombstone
(`t.Min ≤ ie.MinTime && t.Max ≥ ie.MaxTime`), skip blocks with
`ie.MaxTime < st` or `ie.MinTime > et`, and emit a location whose
`readMax` is `st - 1` (or `st` itself if `st - 1` would wrap around
int64). -/
def locations (files : List TSMFile) (st et : Int) : List Location :=
  files.flatMap (fun fd =>
    (fd.entries.filter (fun ie =>
        (!(fd.tombstones.any (fun t =>
            decide (t.1 ≤ ie.1.minTime) && decide (ie.1.maxTime ≤ t.2)))) &&
        decide (st ≤ ie.1.maxTime) && decide (ie.1.minTime ≤ et))).map (fun ie =>
      { entry := ie.1
      , readMax := if i64wrap (st - 1) < st then st - 1 else st
      , values := ie.2
      , tombstones := fd.tombstones }))

-- ==================================================================
-- C6: DataMigrateCommand.validate (src/dataMigrate.go:179-190)
-- ==================================================================
/-- The options `validate` consults (src/options.go:3-19, after `Run`
has parsed `--start`/`--end` into `StartTime`/`EndTime`; an unset time
is `MinInt64`/`MaxInt64`, *not* 0). -/
structure DataMigrateOptions where
  database : String
  retentionPolicy : String
  destDatabase : String
  startTime : Int
  endTime : Int
deriving Repr, DecidableEq

/-- `DataMigrateCommand.validate` (src/dataMigrate.go:179-190): reject
`--retention` without `--database`; default `DestDatabase` to
`Database`; reject `EndTime < StartTime` — but only when *both* parsed
times are nonzero. -/
def validate (opt : DataMigrateOptions) : Except String DataMigrateOptions :=
  if opt.retentionPolicy ≠ "" ∧ opt.database = "" then
    Except.error "dataMigrate: must specify a db"
  else
    let opt' := if opt.destDatabase = "" then
      { opt with destDatabase := opt.database } else opt
    if opt'.startTime ≠ 0 ∧ opt'.endTime ≠ 0 ∧ opt'.endTime < opt'.startTime then
      Except.error "dataMigrate: end time before start time"
    else
      Except.ok opt'

-- ==================================================================
-- C7: Scanner.writeBatches (src/cursor.go:337-373)
-- ==================================================================
/-- The batching loop of `writeBatches`: `acc` is the open batch
(reversed), `count` its size.  Appending a point that brings `count` to
`batchSize` posts the batch and opens a fresh one; exhaustion posts the
open batch (even if empty — the terminal flush is unconditional in the
source).  The result is the list of posted batches in POST order. -/
def writeBatchesGo {α : Type} (batchSize : Nat) :
    List α → Nat → List α → List (List α)
  | [], _, acc => [acc.reverse]
  | p :: rest, count, acc =>
    if count + 1 = batchSize then
      (p :: acc).reverse :: writeBatchesGo batchSize rest 0 []
    else
      writeBatchesGo batchSize rest (count + 1) (p :: acc)

/-- `Scanner.writeBatches` as a function from the scanner's point stream
to the sequence of posted batches. -/
def writeBatches {α : Type} (pts : List α) (batchSize : Nat) : List (List α) :=
  writeBatchesGo batchSize pts 0 []

-- ==================================================================
-- C8: Scanner.retryWrite (src/cursor.go:375-388)
-- ==================================================================
/-- `Scanner.retryWrite` (src/cursor.go:375-388) against an oracle
`res i = true` iff the `i`-th `c.Write(bp)` attempt succeeds.  The
result is the trace of batches passed to `Write` (`none` when the fuel
ran out before a success, standing for the source's unbounded loop; the
loop itself never returns an error and never modifies `bp`).  Each
failed attempt in the source logs and sleeps 3 seconds before the next
iteration. -/
def retryWrite {β : Type} (res : Nat → Bool) (bp : β) :
    Nat → Nat → Option (List β)
  | 0, _ => none
  | fuel + 1, i =>
    if res i then some [bp]
    else (retryWrite res bp fuel (i + 1)).map (fun calls => bp :: calls)

-- ==================================================================
-- C5: Scanner.nextPoint (src/cursor.go:291-335) with container/heap
-- ==================================================================
/-- A cursor as the scanner observes it: the list of values it has yet
to emit (`peek` = head, `next` = advance), indexed by cursor id.  This
is the observable behaviour `Cursor.peek`/`Cursor.next` provide
(`nextStream`); monotonicity of that stream is C3. -/
def peekId (store : List (List Value)) (id : Nat) : Option Value :=
  (store.getD id []).head?

/-- `heapCursor.Less` (src/cursor.go:255-266): a cursor peeking `nil`
sorts after everything; otherwise compare peek timestamps. -/
def heapLess (store : List (List Value)) (items : List Nat) (i j : Nat) : Bool :=
  match peekId store (items.getD i 0), peekId store (items.getD j 0) with
  | none, _ => false
  | some _, none => true
  | some x, some y => decide (x.ts < y.ts)

/-- `heapCursor.Swap`. -/
def swapList (l : List Nat) (i j : Nat) : List Nat :=
  (l.set i (l.getD j 0)).set j (l.getD i 0)

/-- `container/heap.down` (sift-down over the first `n` items), fuel
bounded by the item count (the index strictly grows each round). -/
def heapDown (store : List (List Value)) :
    Nat → List Nat → Nat → Nat → List Nat
  | 0, items, _, _ => items
  | fuel + 1, items, i, n =>
    let j1 := 2 * i + 1
    if n ≤ j1 then items
    else
      let j := if j1 + 1 < n ∧ heapLess store items (j1 + 1) j1 then j1 + 1 else j1
      if ¬ heapLess store items j i then items
      else heapDown store fuel (swapList items i j) j n

/-- `container/heap.up` (sift-up), fuel bounded by the item count. -/
def heapUp (store : List (List Value)) :
    Nat → List Nat → Nat → List Nat
  | 0, items, _ => items
  | fuel + 1, items, j =>
    let i := (j - 1) / 2
    if i = j ∨ ¬ heapLess store items j i then items
    else heapUp store fuel (swapList items i j) i

/-- `container/heap.Push`: append, then sift the new last element up. -/
def heapPush (store : List (List Value)) (items : List Nat) (x : Nat) : List Nat :=
  heapUp store (items.length + 1) (items ++ [x]) items.length

/-- `container/heap.Pop`: swap the root with the last element, sift the
root down over the remaining `n-1` items, then remove and return the
last element.  Note that `nextPoint` never calls `heap.Init`, and this
is `Pop`'s full fix-up: it restores nothing unless the array already
satisfied the heap invariant. -/
def heapPop (store : List (List Value)) (items : List Nat) :
    Option Nat × List Nat :=
  match items with
  | [] => (none, [])
  | _ :: _ =>
    let n := items.length - 1
    let items2 := heapDown store items.length (swapList items 0 n) 0 n
    (some (items2.getD n 0), items2.take n)

/-- The scanner state: per-cursor remaining streams, the heap array of
cursor ids, and the field-name → cursor association (`s.fields`, in
Go-map iteration order, which the runtime randomises). -/
structure ScanState where
  store : List (List Value)
  items : List Nat
  fields : List (String × Nat)
deriving Repr, DecidableEq

/-- The field loop of `nextPoint` (src/cursor.go:307-322): for each
field cursor, peek; on a timestamp match with `curTs`, consume one
value and record it in the point's field map. -/
def fieldLoop (curTs : Int) :
    List (String × Nat) → List (List Value) →
      List (String × Value) × List (List Value)
  | [], store => ([], store)
  | (f, id) :: rest, store =>
    match peekId store id with
    | none => fieldLoop curTs rest store
    | some v =>
      if v.ts = curTs then
        let store' := store.set id ((store.getD id []).tail)
        let out := fieldLoop curTs rest store'
        ((f, v) :: out.1, out.2)
      else fieldLoop curTs rest store

/-- `Scanner.nextPoint` (src/cursor.go:291-335): pop the heap root, peek
it; a `nil` peek means `curTs` stays `MaxInt64` and `nil` is returned
(the popped cursor is *not* pushed back); otherwise push the cursor
back, then run the field loop at the popped cursor's peek timestamp and
emit the point. -/
def nextPoint (s : ScanState) : Option (Int × List (String × Value)) × ScanState :=
  match heapPop s.store s.items with
  | (none, items') => (none, { s with items := items' })
  | (some currItem, items') =>
    match peekId s.store currItem with
    | none => (none, { s with items := items' })
    | some currVal =>
      let items2 := heapPush s.store items' currItem
      let out := fieldLoop currVal.ts s.fields s.store
      (some (currVal.ts, out.1), { store := out.2, items := items2, fields := s.fields })

-- ==================================================================
-- C9: splitMeasurementAndTag (options source 613-667) and unescapeTag
-- (src/dataMigrate.go:423-436)
-- ==================================================================
/-- The main rune loop of `splitMeasurementAndTag`: split on unescaped
commas.  `acc` is the segment being accumulated (every rune between
separators is kept verbatim, escape backslashes included); a backslash
outside escape state enters it, the rune after a backslash is skipped
for interpretation.  The remainder after the final separator is
discarded (the caller appends a trailing `','` so every complete
segment is flushed by a comma). -/
def segGo : List Char → Bool → List Char → List (List Char)
  | [], _, _ => []
  | c :: rest, esc, acc =>
    if esc = false ∧ c = '\\' then segGo rest true (acc ++ [c])
    else if esc then segGo rest false (acc ++ [c])
    else if c = ',' then acc :: segGo rest false []
    else segGo rest false (acc ++ [c])

/-- The inner rune loop of `splitMeasurementAndTag` over one `kv`
segment: every *unescaped* `'='` at position `i` yields the pair
`(kv[:i], kv[i+1:])`; the scan continues after a match, so a segment
with several unescaped `'='` yields several pairs. -/
def eqSplits : List Char → Bool → List Char → List (List Char × List Char)
  | [], _, _ => []
  | c :: rest, esc, pre =>
    if esc = false ∧ c = '\\' then eqSplits rest true (pre ++ [c])
    else if esc then eqSplits rest false (pre ++ [c])
    else if c = '=' then (pre, rest) :: eqSplits rest false (pre ++ [c])
    else eqSplits rest false (pre ++ [c])

/-- `bytes.Replace(s, [a,b], [r], -1)`: non-overlapping left-to-right
replacement of the two-byte pattern `[a, b]` by `[r]`.  `pending` is
true when an `a` has been read but not yet matched. -/
def replacePairGo (a b r : Char) : Bool → List Char → List Char
  | pending, [] => if pending then [a] else []
  | pending, c :: rest =>
    if pending then
      if c = b then r :: replacePairGo a b r false rest
      else if c = a then a :: replacePairGo a b r true rest
      else a :: c :: replacePairGo a b r false rest
    else
      if c = a then replacePairGo a b r true rest
      else c :: replacePairGo a b r false rest

def replacePair (a b r : Char) (s : List Char) : List Char :=
  replacePairGo a b r false s

/-- One iteration of the `tagEscapeCodes` loop in `unescapeTag`:
replace `\b` by `b`, but only when the raw byte `b` occurs in the
current intermediate string. -/
def unescStep (b : Char) (s : List Char) : List Char :=
  if s.contains b then replacePair '\\' b b s else s

/-- `unescapeTag` (src/dataMigrate.go:423-436): identity when the input
holds no backslash; otherwise one `unescStep` per escape code, in the
`tagEscapeCodes` order `','`, `' '`, `'='`. -/
def unescapeTag (s : List Char) : List Char :=
  if s.contains '\\' = false then s
  else unescStep '=' (unescStep ' ' (unescStep ',' s))

/-- Go map insertion (`tags[k] = v`) on the association-list model:
replace an existing binding or append a fresh one. -/
def tagsInsert (tags : List (List Char × List Char)) (k v : List Char) :
    List (List Char × List Char) :=
  if tags.any (fun p => p.1 = k) then
    tags.map (fun p => if p.1 = k then (k, v) else p)
  else tags ++ [(k, v)]

/-- Processing of the unescaped-`'='` positions of one `kv` segment
(options source 641-663): an empty tag key or value aborts the whole
parse; otherwise insert the unescaped pair. -/
def applyEqs : List (List Char × List Char) → List (List Char × List Char) →
    Except String (List (List Char × List Char))
  | [], tags => Except.ok tags
  | (k, v) :: rest, tags =>
    if k.length = 0 ∨ v.length = 0 then
      Except.error "splitMeasurementAndTag parse failed: empty tag key or tag value"
    else applyEqs rest (tagsInsert tags (unescapeTag k) (unescapeTag v))

def applyKvs : List (List Char) → List (List Char × List Char) →
    Except String (List (List Char × List Char))
  | [], tags => Except.ok tags
  | kv :: rest, tags =>
    match applyEqs (eqSplits kv false []) tags with
    | Except.error e => Except.error e
    | Except.ok tags' => applyKvs rest tags'

/-- `splitMeasurementAndTag` (options source 613-667): append a `','`,
split on unescaped commas; the first segment is the measurement (kept
in escaped wire form, rejected if empty), the rest are parsed as
`tagK=tagV` with unescaped keys and values.  (When no segment at all is
produced — e.g. a lone trailing backslash escapes the appended comma —
the source would panic indexing `splits[0]`; modelled as an error.) -/
def splitMeasurementAndTag (buf : List Char) :
    Except String (List Char × List (List Char × List Char)) :=
  match segGo (buf ++ [',']) false [] with
  | [] => Except.error "panic: index out of range"
  | m :: kvs =>
    if m.length = 0 then
      Except.error "splitMeasurementAndTag parse failed: measurement can not be nil"
    else
      match applyKvs kvs [] with
      | Except.error e => Except.error e
      | Except.ok tags => Except.ok (m, tags)

/-- Escape one character with the reserved set of `tagEscapeCodes`
(`,`, ` `, `=`), parameterised by the set for the staged `unescapeTag`
proofs. -/
def escOn (p : Char → Bool) (s : List Char) : List Char :=
  s.flatMap (fun c => if p c then ['\\', c] else [c])

/-- The reserved characters of `tagEscapeCodes`. -/
def reservedB (c : Char) : Bool := c = ',' || c = ' ' || c = '='

/-- Re-escape a raw tag key or value with the reserved-character escape
set (the spec's wire encoding of tags). -/
def escTag (s : List Char) : List Char := escOn reservedB s

/-- The wire form of one `tagK=tagV` pair. -/
def kvChars (p : List Char × List Char) : List Char :=
  escTag p.1 ++ '=' :: escTag p.2

/-- Rebuild a series key from a measurement (already in wire form) and
raw tag pairs. -/
def escJoin (m : List Char) (kvs : List (List Char × List Char)) : List Char :=
  m ++ kvs.flatMap (fun p => ',' :: kvChars p)

/-- An escape-well-formed rune sequence: a sequence of units, each
either a plain character (neither a backslash nor in `bad`) or a
backslash followed by an arbitrary character. -/
inductive EscSeq (bad : Char → Bool) : List Char → Prop
  | nil : EscSeq bad []
  | plain {c : Char} {cs : List Char} :
      bad c = false → c ≠ '\\' → EscSeq bad cs → EscSeq bad (c :: cs)
  | esc (c : Char) {cs : List Char} : EscSeq bad cs → EscSeq bad ('\\' :: c :: cs)

/-- A well-formed escaped measurement: no unescaped comma, no dangling
backslash. -/
def MeasOk (m : List Char) : Prop := EscSeq (fun c => c = ',') m

-- ==================================================================
-- C10: termination of readBlock with a depth bound
-- ==================================================================
/-- The well-formedness invariant of a cursor's scalar state: locations
sorted by watermark, watermarks at least `readTs`, and — while data
remains to read — every watermark strictly below its block's `MaxTime`
and below `et`. -/
def WF (s : CState) : Prop :=
  s.seeks.Pairwise rmLE ∧
  (∀ l ∈ s.seeks, s.readTs ≤ l.readMax) ∧
  (s.readTs < s.et → ∀ l ∈ s.seeks, l.readMax < l.entry.maxTime ∧ l.readMax < s.et)

instance : DecidablePred WF := fun s => by
  rw [WF]
  infer_instance

/-- The distinct watermark values strictly above `readTs`: the number of
"future frontier groups" of the cursor. -/
def phiSet (s : CState) : Finset Int :=
  ((s.seeks.map Location.readMax).filter (fun r => decide (s.readTs < r))).toFinset

def phi (s : CState) : Nat := (phiSet s).card

/-- The frontier potential of an *arbitrary* scalar state: every
empty-buffer pass of `readBlock` either drops a finished location
(shrinking `seeks`) or absorbs the next watermark group into the
frontier (`locsToRead` grows), so this quantity strictly decreases. -/
def gauge (s : CState) : Nat :=
  (s.seeks.length + 1) * (s.seeks.length + 1) - (locsToRead s).length

/-- The fuel budget `readBlock` needs from an arbitrary state with `n`
locations: at most `gauge` empty-buffer passes, one recovery pass, and
a well-formed tail of at most `2 n + 1` further passes. -/
def rbBound (n : Nat) : Nat := (n + 1) * (n + 1) + 2 * n + 3

/-- The scalar cursor state as seeded by `Cursor.init` (before the
priming `readBlock` call). -/
def initState (et readTs0 : Int) (seeks : List Location) : CState :=
  match initClamped seeks with
  | [] => { et := et, readTs := readTs0, seeks := [] }
  | l0 :: rest => { et := et, readTs := l0.readMax, seeks := l0 :: rest }

-- ==================================================================
-- Theorems
-- ==================================================================

-- ------------------------------------------------------------------
-- Lemmas about the dedup loop
-- ------------------------------------------------------------------
theorem dedupGo_sublist (cur : Value) (l : List Value) :
    (dedupGo cur l).Sublist (cur :: l) := by
  induction l generalizing cur with
  | nil => simp [dedupGo]
  | cons v rest ih =>
    by_cases h : v.ts ≠ cur.ts
    · simpa [dedupGo, h] using (ih v).cons₂ cur
    · simpa [dedupGo, h] using (ih v).cons cur

theorem dedupKeepLast_sublist (l : List Value) :
    (dedupKeepLast l).Sublist l := by
  cases l with
  | nil => simp [dedupKeepLast]
  | cons v rest => exact dedupGo_sublist v rest

theorem dedupGo_ne_nil (cur : Value) (l : List Value) :
    dedupGo cur l ≠ [] := by
  induction l generalizing cur with
  | nil => simp [dedupGo]
  | cons v rest ih =>
    by_cases h : v.ts ≠ cur.ts <;> simp [dedupGo, h, ih]

/-- Every timestamp of the input survives dedup. -/
theorem dedupGo_ts_covers (cur : Value) (l : List Value) :
    ∀ v ∈ cur :: l, ∃ w ∈ dedupGo cur l, w.ts = v.ts := by
  induction l generalizing cur with
  | nil =>
    intro v hv
    rw [List.mem_cons] at hv
    rcases hv with h | h
    · exact ⟨cur, by simp [dedupGo], by rw [h]⟩
    · simp at h
  | cons x rest ih =>
    intro v hv
    rw [List.mem_cons] at hv
    by_cases h : x.ts ≠ cur.ts
    · rcases hv with h1 | hv'
      · exact ⟨cur, by simp [dedupGo, h], by rw [h1]⟩
      · obtain ⟨w, hw, hwts⟩ := ih x v hv'
        refine ⟨w, ?_, hwts⟩
        simp only [dedupGo, if_pos h, List.mem_cons]
        exact Or.inr hw
    · push_neg at h
      rcases hv with h1 | hv'
      · obtain ⟨w, hw, hwts⟩ := ih x x (by simp)
        exact ⟨w, by simpa [dedupGo, h] using hw, by rw [hwts, h, h1]⟩
      · obtain ⟨w, hw, hwts⟩ := ih x v hv'
        exact ⟨w, by simpa [dedupGo, h] using hw, hwts⟩

/-- On a timestamp-sorted run, dedup output is *strictly* increasing. -/
theorem dedupGo_strict (cur : Value) (l : List Value)
    (h : (cur :: l).Pairwise tsLE) :
    (dedupGo cur l).Pairwise (fun a b => a.ts < b.ts) := by
  induction l generalizing cur with
  | nil => simp [dedupGo]
  | cons v rest ih =>
    rw [List.pairwise_cons] at h
    obtain ⟨hcur, hrest⟩ := h
    by_cases hne : v.ts ≠ cur.ts
    · have hlt : cur.ts < v.ts :=
        lt_of_le_of_ne (hcur v (by simp)) (Ne.symm hne)
      have htail := ih v hrest
      simp only [dedupGo, if_pos hne]
      rw [List.pairwise_cons]
      refine ⟨fun w hw => ?_, htail⟩
      have hsub := dedupGo_sublist v rest
      have hwmem : w ∈ v :: rest := hsub.subset hw
      rw [List.mem_cons] at hwmem
      rcases hwmem with h1 | h2
      · rw [h1]; exact hlt
      · have : tsLE v w := (List.pairwise_cons.mp hrest).1 w h2
        exact lt_of_lt_of_le hlt this
    · simpa [dedupGo, hne] using ih v hrest

theorem dedupKeepLast_strict (l : List Value) (h : SortedTs l) :
    (dedupKeepLast l).Pairwise (fun a b => a.ts < b.ts) := by
  cases l with
  | nil => simp [dedupKeepLast]
  | cons v rest => exact dedupGo_strict v rest h

/-- On a sorted list the dedup loop keeps, for each timestamp `t`,
exactly the *last* element of the `t`-run. -/
theorem dedupGo_filter (cur : Value) (l : List Value)
    (h : (cur :: l).Pairwise tsLE) (t : Int) :
    (dedupGo cur l).filter (fun v => v.ts = t) =
      (((cur :: l).filter (fun v => v.ts = t)).getLast?).toList := by
  induction l generalizing cur with
  | nil =>
    by_cases hc : cur.ts = t <;> simp [dedupGo, List.filter, hc]
  | cons v rest ih =>
    rw [List.pairwise_cons] at h
    obtain ⟨hcur, hrest⟩ := h
    have htail := ih v hrest
    by_cases hne : v.ts ≠ cur.ts
    · rw [dedupGo, if_pos hne]
      by_cases hc : cur.ts = t
      · -- cur's run is exactly [cur]: all of v::rest has ts > t
        have hvgt : ∀ w ∈ v :: rest, t < w.ts := by
          intro w hw
          have hle : tsLE cur w := hcur w hw
          have hvw : tsLE v w := by
            rw [List.mem_cons] at hw
            rcases hw with h1 | h2
            · rw [h1]; exact le_refl _
            · exact (List.pairwise_cons.mp hrest).1 w h2
          have hvgt' : t < v.ts :=
            lt_of_le_of_ne (hc ▸ hcur v (by simp)) (fun hh => hne (hc ▸ hh.symm))
          exact lt_of_lt_of_le hvgt' hvw
        have hnone : (v :: rest).filter (fun w => decide (w.ts = t)) = [] := by
          rw [List.filter_eq_nil_iff]
          intro w hw
          simp only [decide_eq_true_eq]
          exact fun hh => absurd hh (ne_of_gt (hvgt w hw))
        have hnone' : (dedupGo v rest).filter (fun w => decide (w.ts = t)) = [] := by
          rw [List.filter_eq_nil_iff]
          intro w hw
          simp only [decide_eq_true_eq]
          have := (dedupGo_sublist v rest).subset hw
          exact fun hh => absurd hh (ne_of_gt (hvgt w this))
        rw [List.filter_cons_of_pos (by simp [hc]),
          List.filter_cons_of_pos (by simp [hc]), hnone, hnone']
        rfl
      · rw [List.filter_cons_of_neg (by simp [hc]),
          List.filter_cons_of_neg (by simp [hc]), htail]
    · push_neg at hne
      rw [dedupGo, if_neg (not_not_intro (by rw [hne]))]
      by_cases hc : cur.ts = t
      · have hv : v.ts = t := hne.trans hc
        have e1 : (v :: rest).filter (fun w => decide (w.ts = t)) =
            v :: rest.filter (fun w => decide (w.ts = t)) := by
          simp [List.filter_cons, hv]
        have e2 : (cur :: v :: rest).filter (fun w => decide (w.ts = t)) =
            cur :: v :: rest.filter (fun w => decide (w.ts = t)) := by
          simp [List.filter_cons, hc, hv]
        rw [htail, e1, e2, List.getLast?_cons_cons]
      · have hv : ¬ v.ts = t := fun hh => hc (hne ▸ hh)
        have e1 : (v :: rest).filter (fun w => decide (w.ts = t)) =
            rest.filter (fun w => decide (w.ts = t)) := by
          simp [List.filter_cons, hv]
        have e2 : (cur :: v :: rest).filter (fun w => decide (w.ts = t)) =
            rest.filter (fun w => decide (w.ts = t)) := by
          simp [List.filter_cons, hc, hv]
        rw [htail, e1, e2]

theorem dedupKeepLast_filter (l : List Value) (h : SortedTs l) (t : Int) :
    (dedupKeepLast l).filter (fun v => v.ts = t) =
      ((l.filter (fun v => v.ts = t)).getLast?).toList := by
  cases l with
  | nil => simp [dedupKeepLast]
  | cons v rest => exact dedupGo_filter v rest h t

-- ------------------------------------------------------------------
-- readBlock emission lemmas
-- ------------------------------------------------------------------
theorem collectVals_mem (r u : Int) (vals : List Value) :
    ∀ v ∈ collectVals r u vals, r < v.ts ∧ v.ts ≤ u := by
  induction vals with
  | nil => simp [collectVals]
  | cons x rest ih =>
    intro v hv
    rw [collectVals] at hv
    by_cases h1 : x.ts ≤ r
    · rw [if_pos h1] at hv; exact ih v hv
    · rw [if_neg h1] at hv
      by_cases h2 : u < x.ts
      · rw [if_pos h2] at hv; simp at hv
      · rw [if_neg h2, List.mem_cons] at hv
        rcases hv with h | h
        · rw [h]; exact ⟨lt_of_not_le h1, le_of_not_lt h2⟩
        · exact ih v h

theorem foldl_maxTime_le (l : List Location) (init : Int) :
    l.foldl (fun ub e => if e.entry.maxTime < ub then e.entry.maxTime else ub) init ≤ init := by
  induction l generalizing init with
  | nil => simp
  | cons x rest ih =>
    simp only [List.foldl_cons]
    by_cases h : x.entry.maxTime < init
    · rw [if_pos h]
      exact le_trans (ih _) (le_of_lt h)
    · rw [if_neg h]
      exact ih init

theorem boundFold_le_et (s : CState) (ltr : List Location) :
    boundFold s ltr ≤ s.et :=
  foldl_maxTime_le ltr s.et

theorem upperBound_le_et (s : CState) (ltr : List Location) :
    upperBound s ltr ≤ s.et := by
  rw [upperBound]
  cases h : s.seeks.get? ltr.length with
  | none => exact boundFold_le_et s ltr
  | some l =>
    show (if l.readMax ≤ boundFold s ltr then l.readMax else boundFold s ltr) ≤ s.et
    by_cases h2 : l.readMax ≤ boundFold s ltr
    · rw [if_pos h2]
      exact le_trans h2 (boundFold_le_et s ltr)
    · rw [if_neg h2]
      exact boundFold_le_et s ltr

theorem bufOf_mem (s : CState) :
    ∀ v ∈ bufOf s, s.readTs < v.ts ∧ v.ts ≤ upperBound s (locsToRead s) := by
  intro v hv
  rw [bufOf, List.mem_flatMap] at hv
  obtain ⟨l, _, hv⟩ := hv
  exact collectVals_mem _ _ _ v hv

theorem sortValues_perm (l : List Value) : (sortValues l).Perm l :=
  List.perm_insertionSort tsLE l

theorem sortValues_sorted (l : List Value) : SortedTs (sortValues l) :=
  List.sorted_insertionSort tsLE l

theorem dedup_sort_mem (l : List Value) :
    ∀ v ∈ dedupKeepLast (sortValues l), v ∈ l := by
  intro v hv
  exact (sortValues_perm l).subset ((dedupKeepLast_sublist _).subset hv)

theorem dedup_sort_strict (l : List Value) :
    (dedupKeepLast (sortValues l)).Pairwise (fun a b => a.ts < b.ts) :=
  dedupKeepLast_strict _ (sortValues_sorted l)

/-- Main safety lemma for `readBlock`: the end time never changes,
`readTs` never decreases, and a returned buffer is strictly
timestamp-sorted with every value in `(readTs, readTs'] ∩ (-∞, et]`. -/
theorem readBlockFuel_spec (fuel : Nat) :
    ∀ s ob s', readBlockFuel fuel s = some (ob, s') →
      s'.et = s.et ∧ s.readTs ≤ s'.readTs ∧
      ∀ buf, ob = some buf →
        buf.Pairwise (fun a b => a.ts < b.ts) ∧
        ∀ v ∈ buf, s.readTs < v.ts ∧ v.ts ≤ s'.readTs ∧ v.ts ≤ s.et := by
  induction fuel with
  | zero => intro s ob s' h; simp [readBlockFuel] at h
  | succ fuel ih =>
    intro s ob s' h
    rw [readBlockFuel] at h
    by_cases h1 : s.seeks.isEmpty ∨ s.et ≤ s.readTs
    · rw [if_pos h1] at h
      obtain ⟨rfl, rfl⟩ : none = ob ∧ s = s' := by
        constructor <;> [exact congrArg Prod.fst (Option.some.inj h);
          exact congrArg Prod.snd (Option.some.inj h)]
      exact ⟨rfl, le_refl _, fun buf hb => by simp at hb⟩
    · rw [if_neg h1] at h
      by_cases h2 : upperBound s (locsToRead s) ≤ s.readTs
      · rw [if_pos h2] at h
        obtain ⟨het, hrts, hbuf⟩ := ih (recover s) ob s' h
        refine ⟨het, hrts, fun buf hb => ?_⟩
        obtain ⟨hp, hm⟩ := hbuf buf hb
        exact ⟨hp, fun v hv => (hm v hv).imp id (fun hh => hh.imp id id)⟩
      · rw [if_neg h2] at h
        have hub : s.readTs < upperBound s (locsToRead s) := lt_of_not_le h2
        by_cases h3 : (bufOf s).isEmpty
        · rw [if_pos h3] at h
          obtain ⟨het, hrts, hbuf⟩ := ih (advance s) ob s' h
          have het' : s'.et = s.et := het
          have hrts' : s.readTs ≤ s'.readTs := le_trans (le_of_lt hub) hrts
          refine ⟨het', hrts', fun buf hb => ?_⟩
          obtain ⟨hp, hm⟩ := hbuf buf hb
          refine ⟨hp, fun v hv => ?_⟩
          obtain ⟨ha, hb', hc⟩ := hm v hv
          exact ⟨lt_trans hub ha, hb', hc⟩
        · rw [if_neg h3] at h
          obtain ⟨rfl, rfl⟩ : some (dedupKeepLast (sortValues (bufOf s))) = ob ∧
              advance s = s' := by
            constructor <;> [exact congrArg Prod.fst (Option.some.inj h);
              exact congrArg Prod.snd (Option.some.inj h)]
          refine ⟨rfl, le_of_lt hub, fun buf hb => ?_⟩
          obtain rfl : dedupKeepLast (sortValues (bufOf s)) = buf := Option.some.inj hb
          refine ⟨dedup_sort_strict _, fun v hv => ?_⟩
          have hvm := dedup_sort_mem _ v hv
          obtain ⟨hlo, hhi⟩ := bufOf_mem s v hvm
          refine ⟨hlo, ?_, le_trans hhi (upperBound_le_et s _)⟩
          show v.ts ≤ (advance s).readTs
          rw [advance]
          exact hhi

theorem next_above (fuel : Nat) :
    ∀ c t, CursorAbove c t →
      ∀ v c', next fuel c = (some v, c') →
        t < v.ts ∧ v.ts ≤ c.st.et ∧ CursorAbove c' v.ts ∧ c'.st.et = c.st.et := by
  induction fuel with
  | zero => intro c t _ v c' h; simp [next] at h
  | succ fuel ih =>
    intro c t hc v c' h
    obtain ⟨hsorted, hbnd, hle⟩ := hc
    rw [next] at h
    by_cases hpos : c.pos < c.buf.length
    · rw [dif_pos hpos] at h
      obtain ⟨h1, h2⟩ : some (c.buf.get ⟨c.pos, hpos⟩) = some v ∧
          ({ c with pos := c.pos + 1 } : Cursor) = c' := by
        constructor <;> [exact congrArg Prod.fst h; exact congrArg Prod.snd h]
      have hval : v = c.buf[c.pos] := (Option.some.inj h1).symm
      have hdrop : c.buf.drop c.pos = c.buf[c.pos] :: c.buf.drop (c.pos + 1) :=
        List.drop_eq_getElem_cons hpos
      have hmem : v ∈ c.buf.drop c.pos := by
        rw [hdrop, hval]
        exact List.mem_cons_self _ _
      obtain ⟨ht, hrts, het⟩ := hbnd v hmem
      have hps : (c.buf.drop (c.pos + 1)).Pairwise (fun a b => a.ts < b.ts) := by
        have := hsorted
        rw [hdrop, List.pairwise_cons] at this
        exact this.2
      have hhead : ∀ w ∈ c.buf.drop (c.pos + 1), v.ts < w.ts := by
        intro w hw
        have := hsorted
        rw [hdrop, List.pairwise_cons] at this
        rw [hval]
        exact this.1 w hw
      subst h2
      refine ⟨ht, het, ⟨hps, ?_, hrts⟩, rfl⟩
      intro w hw
      have hw' : w ∈ c.buf.drop c.pos := by
        rw [hdrop]
        exact List.mem_cons_of_mem _ hw
      obtain ⟨_, h2', h3'⟩ := hbnd w hw'
      exact ⟨hhead w hw, h2', h3'⟩
    · rw [dif_neg hpos] at h
      cases hrb : readBlockFuel (fuel + 1) c.st with
      | none => rw [hrb] at h; simp at h
      | some res =>
        obtain ⟨ob, s'⟩ := res
        rw [hrb] at h
        obtain ⟨het', hrts', hbuf'⟩ := readBlockFuel_spec (fuel + 1) c.st ob s' hrb
        cases ob with
        | none => simp at h
        | some buf =>
          obtain ⟨hp, hm⟩ := hbuf' buf rfl
          have hnew : CursorAbove { st := s', buf := buf, pos := 0 } t := by
            refine ⟨by simpa using hp, ?_, le_trans hle hrts'⟩
            intro w hw
            rw [List.drop_zero] at hw
            obtain ⟨h1', h2', h3'⟩ := hm w hw
            exact ⟨lt_of_le_of_lt hle h1', h2', by rw [het']; exact h3'⟩
          obtain ⟨ht, het2, hca, hetc⟩ := ih _ t hnew v c' h
          refine ⟨ht, ?_, hca, by rw [hetc]; exact het'⟩
          show v.ts ≤ c.st.et
          rw [← het']
          exact het2

theorem locations_readMax (files : List TSMFile) (st et : Int) :
    ∀ l ∈ locations files st et, st - 1 ≤ l.readMax := by
  intro l hl
  rw [locations, List.mem_flatMap] at hl
  obtain ⟨fd, _, hl⟩ := hl
  rw [List.mem_map] at hl
  obtain ⟨ie, _, rfl⟩ := hl
  by_cases h : i64wrap (st - 1) < st
  · simp only [if_pos h]
    exact le_refl _
  · simp only [if_neg h]
    exact le_of_lt (sub_one_lt st)

theorem nextStream_above (n : Nat) :
    ∀ fuel c t, CursorAbove c t →
      ((nextStream n fuel c).map Value.ts).Pairwise (· < ·) ∧
      ∀ v ∈ nextStream n fuel c, t < v.ts ∧ v.ts ≤ c.st.et := by
  induction n with
  | zero => intro fuel c t _; simp [nextStream]
  | succ n ih =>
    intro fuel c t hc
    rw [nextStream]
    cases hn : next fuel c with
    | mk ov c' =>
      cases ov with
      | none => simp
      | some v =>
        obtain ⟨ht, het, hca, hetc⟩ := next_above fuel c t hc v c' hn
        obtain ⟨hp, hm⟩ := ih fuel c' v.ts hca
        simp only [List.map_cons, List.pairwise_cons, List.mem_cons]
        refine ⟨⟨?_, hp⟩, ?_⟩
        · intro b hb
          rw [List.mem_map] at hb
          obtain ⟨w, hw, rfl⟩ := hb
          exact (hm w hw).1
        · intro w hw
          rcases hw with rfl | hw
          · exact ⟨ht, het⟩
          · obtain ⟨h1, h2⟩ := hm w hw
            exact ⟨lt_trans ht h1, by rw [← hetc]; exact h2⟩

/-- A freshly initialised cursor satisfies the invariant at the seeded
`readTs`, and carries the requested end time. -/
theorem initCursor_above (fuel : Nat) (et readTs0 : Int) (seeks : List Location) :
    CursorAbove (initCursor fuel et readTs0 seeks) (initSeedTs readTs0 seeks) ∧
      (initCursor fuel et readTs0 seeks).st.et = et := by
  rw [initCursor, initSeedTs]
  cases hcl : initClamped seeks with
  | nil => exact ⟨⟨by simp, by simp, le_refl _⟩, rfl⟩
  | cons l0 rest =>
    cases hrb : readBlockFuel fuel { et := et, readTs := l0.readMax, seeks := l0 :: rest } with
    | none =>
      simp only [hrb]
      exact ⟨⟨by simp, by simp, le_refl _⟩, trivial⟩
    | some res =>
      obtain ⟨ob, s'⟩ := res
      obtain ⟨het, hrts, hbuf⟩ :=
        readBlockFuel_spec fuel { et := et, readTs := l0.readMax, seeks := l0 :: rest } ob s' hrb
      cases ob with
      | none =>
        simp only [hrb]
        exact ⟨⟨by simp, by simp, hrts⟩, het⟩
      | some buf =>
        simp only [hrb]
        obtain ⟨hp, hm⟩ := hbuf buf rfl
        refine ⟨⟨by simpa using hp, ?_, hrts⟩, het⟩
        intro v hv
        rw [List.drop_zero] at hv
        obtain ⟨h1, h2, h3⟩ := hm v hv
        exact ⟨h1, h2, by rw [het]; exact h3⟩

/-- C3: for every cursor whose init succeeded, the non-nil values
returned by successive `next()` calls have strictly increasing
timestamps — no duplicate is ever emitted, including across `readBlock`
refills of the buffer.  (`fuel₁`/`fuel₂` drive the modelled recursion
and `n` the number of `next` calls; the property holds for all of
them.) -/
theorem cursor_monotonic (fuel₁ fuel₂ n : Nat) (et readTs0 : Int)
    (seeks : List Location) :
    ((nextStream n fuel₂ (initCursor fuel₁ et readTs0 seeks)).map Value.ts).Pairwise
      (· < ·) :=
  (nextStream_above n fuel₂ (initCursor fuel₁ et readTs0 seeks)
    (initSeedTs readTs0 seeks) (initCursor_above fuel₁ et readTs0 seeks).1).1

theorem initSeedTs_ge (files : List TSMFile) (st et readTs0 : Int) :
    st - 1 ≤ initSeedTs readTs0 (locations files st et) ∨
      initSeedTs readTs0 (locations files st et) = readTs0 := by
  rw [initSeedTs]
  cases hcl : initClamped (locations files st et) with
  | nil => exact Or.inr rfl
  | cons l0 rest =>
    left
    have hmem : l0 ∈ initClamped (locations files st et) := by
      rw [hcl]; exact List.mem_cons_self _ _
    rw [initClamped, List.mem_map] at hmem
    obtain ⟨l, hl, rfl⟩ := hmem
    have hl' : l ∈ locations files st et :=
      (List.perm_insertionSort _ _).subset hl
    have hbase := locations_readMax files st et l hl'
    by_cases h : l.readMax < l.entry.minTime - 1
    · rw [if_pos h]
      exact le_trans hbase (le_of_lt h)
    · rw [if_neg h]
      exact hbase

/-- C4: every value emitted by a cursor built over the planner's
locations for the window `[st, et]` (seeded with `readTs = st`, as
`writeCurrentFiles` does) satisfies `st ≤ ts ≤ et`, both ends
inclusive. -/
theorem cursor_window (fuel₁ fuel₂ n : Nat) (st et : Int) (files : List TSMFile) :
    ∀ v ∈ nextStream n fuel₂ (initCursor fuel₁ et st (locations files st et)),
      st ≤ v.ts ∧ v.ts ≤ et := by
  intro v hv
  obtain ⟨hca, hetc⟩ := initCursor_above fuel₁ et st (locations files st et)
  obtain ⟨-, hall⟩ := nextStream_above n fuel₂ _ _ hca
  obtain ⟨h1, h2⟩ := hall v hv
  refine ⟨?_, by rw [← hetc]; exact h2⟩
  rcases initSeedTs_ge files st et st with h | h
  · linarith
  · rw [h] at h1; linarith

/-- C4 witness: on a concrete one-file corpus with window `[0, 1000]`,
the first emitted value (timestamp 10) indeed lies inside the window. -/
theorem cursor_window_witness :
    0 ≤ (⟨10, 1⟩ : Value).ts ∧ (⟨10, 1⟩ : Value).ts ≤ 1000 :=
  cursor_window 10 10 6 0 1000
    [{ entries := [({ minTime := 0, maxTime := 100 },
        [⟨10, 1⟩, ⟨30, 2⟩, ⟨50, 3⟩, ⟨60, 4⟩])], tombstones := [] }]
    ⟨10, 1⟩ (by decide)

/-- C1 (code bug): on the spec's S6 scenario — one block `[0,100]` with
tombstone `(10, 50)` and values at ts 10, 30, 50, 60, window
`[0, 1000]` — the cursor emits *all four* timestamps, including ts 30
which lies strictly inside the tombstone, because the tombstone check in
`readBlock` (src/cursor.go:161-165) `continue`s the inner tombstone loop
rather than skipping the value.  The spec-intended filter
(`collectValsSpec`) would emit exactly ts 10, 50, 60. -/
theorem readBlock_ignores_tombstones :
    ((nextStream 6 10 (initCursor 10 1000 0
        [{ entry := { minTime := 0, maxTime := 100 }
         , readMax := -1
         , values := [⟨10, 1⟩, ⟨30, 2⟩, ⟨50, 3⟩, ⟨60, 4⟩]
         , tombstones := [(10, 50)] }])).map Value.ts = [10, 30, 50, 60]) ∧
    ((collectValsSpec (-1) 100 [(10, 50)]
        [⟨10, 1⟩, ⟨30, 2⟩, ⟨50, 3⟩, ⟨60, 4⟩]).map Value.ts = [10, 50, 60]) ∧
    ((10 : Int) < 30 ∧ (30 : Int) < 50) := by
  refine ⟨?_, ?_, by decide⟩ <;> rfl

-- ------------------------------------------------------------------
-- C2: sort-and-dedup of the buffer
-- ------------------------------------------------------------------
theorem dedupKeepLast_ts_covers (l : List Value) :
    ∀ v ∈ l, ∃ w ∈ dedupKeepLast l, w.ts = v.ts := by
  cases l with
  | nil => simp
  | cons x rest => exact dedupGo_ts_covers x rest

theorem strict_filter_le_one (l : List Value)
    (h : l.Pairwise (fun a b => a.ts < b.ts)) (t : Int) :
    (l.filter (fun v => v.ts = t)).length ≤ 1 := by
  have hp : (l.filter (fun v => v.ts = t)).Pairwise (fun a b => a.ts < b.ts) :=
    h.filter _
  cases hf : l.filter (fun v => v.ts = t) with
  | nil => simp
  | cons a rest =>
    cases rest with
    | nil => simp
    | cons b rest' =>
      exfalso
      have ha : a.ts = t := by
        have : a ∈ l.filter (fun v => v.ts = t) := by rw [hf]; simp
        simpa using (List.mem_filter.mp this).2
      have hb : b.ts = t := by
        have : b ∈ l.filter (fun v => v.ts = t) := by rw [hf]; simp
        simpa using (List.mem_filter.mp this).2
      rw [hf, List.pairwise_cons] at hp
      have := hp.1 b (by simp)
      rw [ha, hb] at this
      exact lt_irrefl t this

/-- C2 counterexample: the claim asserts `sortAndDeduplicateValues`
*stably* sorts and therefore keeps, per duplicated timestamp, the value
from the later-read file.  Go's `sort.Slice` documentation explicitly
does not guarantee stability, so the contract admits the run below: the
buffer was appended as `[⟨75,1⟩, ⟨75,2⟩]` (payload 1 from the
earlier-read file, payload 2 from the later), a timestamp-ordered
permutation `[⟨75,2⟩, ⟨75,1⟩]` is a legal `sort.Slice` output, and the
dedup loop then keeps `⟨75,1⟩` — the *earlier*-read payload. -/
theorem sortAndDeduplicateValues_not_stable :
    SortDedupRel [⟨75, 1⟩, ⟨75, 2⟩] [⟨75, 1⟩] ∧
      ([(⟨75, 1⟩ : Value)] ≠ [(⟨75, 2⟩ : Value)]) := by
  refine ⟨⟨[⟨75, 2⟩, ⟨75, 1⟩], ?_, ?_, rfl⟩, by decide⟩
  · decide
  · decide

/-- C2 (amended): `sortAndDeduplicateValues` sorts the buffer ascending
by timestamp (Go's `sort.Slice`, which does *not* guarantee stability)
and collapses each run of equal timestamps keeping the run's last
element in post-sort order.  Hence exactly one value per duplicated
timestamp is emitted (output strictly sorted, timestamps preserved, at
most one element per timestamp); and *whenever* the sorted permutation
is stable — e.g. any stable execution of the sort — the kept element of
each run is the last occurrence in the original append order, i.e. the
value from the later-read file. -/
theorem sortAndDeduplicateValues_amended (buf mid : List Value)
    (hperm : mid.Perm buf) (hsorted : SortedTs mid) :
    (dedupKeepLast mid).Pairwise (fun a b => a.ts < b.ts) ∧
    (∀ t : Int, (∃ v ∈ buf, v.ts = t) ↔ ∃ w ∈ dedupKeepLast mid, w.ts = t) ∧
    (∀ t : Int, ((dedupKeepLast mid).filter (fun v => v.ts = t)).length ≤ 1) ∧
    (StableFor buf mid →
      ∀ t : Int, (dedupKeepLast mid).filter (fun v => v.ts = t) =
        ((buf.filter (fun v => v.ts = t)).getLast?).toList) := by
  refine ⟨dedupKeepLast_strict mid hsorted, ?_, ?_, ?_⟩
  · intro t
    constructor
    · rintro ⟨v, hv, rfl⟩
      obtain ⟨w, hw, hwts⟩ := dedupKeepLast_ts_covers mid v (hperm.mem_iff.mpr hv)
      exact ⟨w, hw, hwts⟩
    · rintro ⟨w, hw, rfl⟩
      have : w ∈ mid := (dedupKeepLast_sublist mid).subset hw
      exact ⟨w, hperm.mem_iff.mp this, rfl⟩
  · exact strict_filter_le_one _ (dedupKeepLast_strict mid hsorted)
  · intro hstable t
    rw [dedupKeepLast_filter mid hsorted t, hstable t]

/-- C2 amended-theorem witness: the stable permutation of the same
two-value buffer keeps the later-read payload. -/
theorem sortAndDeduplicateValues_amended_witness :
    (dedupKeepLast [(⟨75, 1⟩ : Value), ⟨75, 2⟩]).Pairwise (fun a b => a.ts < b.ts) ∧
    (∀ t : Int, (∃ v ∈ [(⟨75, 1⟩ : Value), ⟨75, 2⟩], v.ts = t) ↔
      ∃ w ∈ dedupKeepLast [(⟨75, 1⟩ : Value), ⟨75, 2⟩], w.ts = t) ∧
    (∀ t : Int, ((dedupKeepLast [(⟨75, 1⟩ : Value), ⟨75, 2⟩]).filter
      (fun v => v.ts = t)).length ≤ 1) ∧
    (StableFor [(⟨75, 1⟩ : Value), ⟨75, 2⟩] [(⟨75, 1⟩ : Value), ⟨75, 2⟩] →
      ∀ t : Int, (dedupKeepLast [(⟨75, 1⟩ : Value), ⟨75, 2⟩]).filter (fun v => v.ts = t) =
        (([(⟨75, 1⟩ : Value), ⟨75, 2⟩].filter (fun v => v.ts = t)).getLast?).toList) :=
  sortAndDeduplicateValues_amended [⟨75, 1⟩, ⟨75, 2⟩] [⟨75, 1⟩, ⟨75, 2⟩]
    (by decide) (by decide)

/-- C6 counterexample: with `--start` parsing to exactly the Unix epoch
(`StartTime = 0`) and an earlier `--end` (`EndTime = -1 < 0`),
`validate` returns no error, although the claim requires every
`end < start` pair to be rejected. -/
theorem validate_epoch_counterexample :
    validate { database := "db", retentionPolicy := "", destDatabase := "d",
               startTime := 0, endTime := -1 } =
      Except.ok { database := "db", retentionPolicy := "", destDatabase := "d",
                  startTime := 0, endTime := -1 } ∧
    (-1 : Int) < 0 :=
  ⟨rfl, by decide⟩

/-- C6 (amended): `validate` errors exactly when `--retention` is set
with `--database` empty, or when the end time is before the start time
*and both parsed times are nonzero*; a start or end parsing to exactly
the Unix epoch (0) disables the `end < start` check.  Otherwise it
returns the options with `DestDatabase` defaulted. -/
theorem validate_amended (opt : DataMigrateOptions) :
    (∃ e, validate opt = Except.error e) ↔
      ((opt.retentionPolicy ≠ "" ∧ opt.database = "") ∨
       (opt.startTime ≠ 0 ∧ opt.endTime ≠ 0 ∧ opt.endTime < opt.startTime)) := by
  rw [validate]
  by_cases h1 : opt.retentionPolicy ≠ "" ∧ opt.database = ""
  · rw [if_pos h1]
    simp [h1]
  · rw [if_neg h1]
    have hpreserve : ∀ o' : DataMigrateOptions,
        o' = (if opt.destDatabase = "" then
          { opt with destDatabase := opt.database } else opt) →
        o'.startTime = opt.startTime ∧ o'.endTime = opt.endTime := by
      intro o' ho'
      by_cases hd : opt.destDatabase = ""
      · rw [ho', if_pos hd]; exact ⟨rfl, rfl⟩
      · rw [ho', if_neg hd]; exact ⟨rfl, rfl⟩
    obtain ⟨hst, het⟩ := hpreserve _ rfl
    by_cases h2 : opt.startTime ≠ 0 ∧ opt.endTime ≠ 0 ∧ opt.endTime < opt.startTime
    · rw [if_pos (by rw [hst, het]; exact h2)]
      simp [h1, h2]
    · rw [if_neg (by rw [hst, het]; exact h2)]
      simp [h1, h2]

theorem writeBatchesGo_ne_nil {α : Type} (batchSize : Nat) (pts : List α)
    (count : Nat) (acc : List α) : writeBatchesGo batchSize pts count acc ≠ [] := by
  induction pts generalizing count acc with
  | nil => simp [writeBatchesGo]
  | cons p rest ih =>
    rw [writeBatchesGo]
    by_cases h : count + 1 = batchSize
    · rw [if_pos h]; simp
    · rw [if_neg h]; exact ih _ _

theorem mem_dropLast_cons {α : Type} (b x : α) (L : List α)
    (h : b ∈ (x :: L).dropLast) : b = x ∨ b ∈ L.dropLast := by
  cases L with
  | nil => simp at h
  | cons y ys =>
    have he : (x :: y :: ys).dropLast = x :: (y :: ys).dropLast := rfl
    rw [he, List.mem_cons] at h
    exact h

theorem getLastD_cons_ne {α : Type} (x d : α) (L : List α) (h : L ≠ []) :
    (x :: L).getLastD d = L.getLastD d := by
  cases L with
  | nil => exact absurd rfl h
  | cons y ys => simp [List.getLastD_cons]

theorem writeBatchesGo_spec {α : Type} (batchSize : Nat) (hbs : 1 ≤ batchSize) :
    ∀ (pts : List α) (count : Nat) (acc : List α),
      acc.length = count → count < batchSize →
      (∀ b ∈ (writeBatchesGo batchSize pts count acc).dropLast, b.length = batchSize) ∧
      ((writeBatchesGo batchSize pts count acc).getLastD []).length ≤ batchSize ∧
      (writeBatchesGo batchSize pts count acc).flatten = acc.reverse ++ pts := by
  intro pts
  induction pts with
  | nil =>
    intro count acc hlen hlt
    refine ⟨by simp [writeBatchesGo], ?_, by simp [writeBatchesGo]⟩
    have he : ([acc.reverse] : List (List α)).getLastD [] = acc.reverse := rfl
    simp only [writeBatchesGo, he, List.length_reverse, hlen]
    exact le_of_lt hlt
  | cons p rest ih =>
    intro count acc hlen hlt
    rw [writeBatchesGo]
    by_cases hfull : count + 1 = batchSize
    · rw [if_pos hfull]
      obtain ⟨h1, h2, h3⟩ := ih 0 [] rfl (lt_of_lt_of_le Nat.zero_lt_one hbs)
      refine ⟨?_, ?_, ?_⟩
      · intro b hb
        rcases mem_dropLast_cons b _ _ hb with hhead | htail
        · rw [hhead]
          simp [hlen, hfull]
        · exact h1 b htail
      · rw [getLastD_cons_ne _ _ _ (writeBatchesGo_ne_nil _ _ _ _)]
        exact h2
      · simp only [List.flatten_cons, h3]
        simp
    · rw [if_neg hfull]
      have hlt' : count + 1 < batchSize := lt_of_le_of_ne (Nat.succ_le_of_lt hlt) hfull
      obtain ⟨h1, h2, h3⟩ := ih (count + 1) (p :: acc) (by simp [hlen]) hlt'
      refine ⟨h1, h2, ?_⟩
      rw [h3]
      simp

/-- C7: `writeBatches` accumulates points and posts a batch exactly when
`batchSize` is reached, flushing the remainder on exhaustion; hence
every POST but the last carries exactly `batchSize` points, the last at
most `batchSize`, and the posted batches concatenate to exactly the
scanner's point stream. -/
theorem writeBatches_spec {α : Type} (pts : List α) (batchSize : Nat)
    (hbs : 1 ≤ batchSize) :
    (∀ b ∈ (writeBatches pts batchSize).dropLast, b.length = batchSize) ∧
    ((writeBatches pts batchSize).getLastD []).length ≤ batchSize ∧
    (writeBatches pts batchSize).flatten = pts := by
  have h := writeBatchesGo_spec batchSize hbs pts 0 [] rfl
    (lt_of_lt_of_le Nat.zero_lt_one hbs)
  rw [writeBatches]
  refine ⟨h.1, h.2.1, ?_⟩
  rw [h.2.2]
  simp

/-- C7 witness: five points with `batchSize = 2` produce batches
`[[_,_],[_,_],[_]]`. -/
theorem writeBatches_witness :
    (∀ b ∈ (writeBatches [1, 2, 3, 4, 5] 2).dropLast, b.length = 2) ∧
    ((writeBatches [1, 2, 3, 4, 5] 2).getLastD []).length ≤ 2 ∧
    (writeBatches [1, 2, 3, 4, 5] 2).flatten = [1, 2, 3, 4, 5] :=
  writeBatches_spec [1, 2, 3, 4, 5] 2 (by decide)

theorem retryWrite_go (res : Nat → Bool) {β : Type} (bp : β) :
    ∀ (fuel i : Nat), (∃ m, m < fuel ∧ res (i + m) = true) →
      ∃ k, k < fuel ∧ res (i + k) = true ∧ (∀ j < k, res (i + j) = false) ∧
        retryWrite res bp fuel i = some (List.replicate (k + 1) bp) := by
  intro fuel
  induction fuel with
  | zero =>
    intro i h
    obtain ⟨m, hm, _⟩ := h
    exact absurd hm (Nat.not_lt_zero m)
  | succ fuel ih =>
    intro i h
    by_cases h0 : res i
    · refine ⟨0, Nat.succ_pos fuel, by simpa using h0, by omega, ?_⟩
      rw [retryWrite, if_pos h0]
      rfl
    · obtain ⟨m, hm, hres⟩ := h
      have hm0 : m ≠ 0 := by
        intro hc
        rw [hc] at hres
        simp only [Nat.add_zero] at hres
        exact h0 hres
      obtain ⟨m', rfl⟩ := Nat.exists_eq_succ_of_ne_zero hm0
      have hrec : ∃ m, m < fuel ∧ res (i + 1 + m) = true :=
        ⟨m', by omega, by rw [show i + 1 + m' = i + (m' + 1) by omega]; exact hres⟩
      obtain ⟨k', hk', hs', hf', he'⟩ := ih (i + 1) hrec
      refine ⟨k' + 1, by omega, ?_, ?_, ?_⟩
      · rw [show i + (k' + 1) = i + 1 + k' by omega]
        exact hs'
      · intro j hj
        cases j with
        | zero => simpa using (Bool.not_eq_true _).mp h0
        | succ j' =>
          rw [show i + (j' + 1) = i + 1 + j' by omega]
          exact hf' j' (by omega)
      · rw [retryWrite, if_neg h0, he']
        rfl

/-- C8: `retryWrite` passes the *identical* batch to every `Write`
attempt and returns exactly when some attempt succeeds: if attempt `n`
succeeds then there is a first successful attempt `k ≤ n`, every
earlier attempt failed (each one logging and sleeping 3 s in the
source), the call trace is `k+1` copies of the same batch `bp`, and no
error is propagated; and if no attempt ever succeeds the loop never
returns (every fuel is exhausted), i.e. it never gives up and never
drops the batch. -/
theorem retryWrite_spec {β : Type} (res : Nat → Bool) (bp : β) :
    (∀ n, res n = true →
      ∃ k, k ≤ n ∧ res k = true ∧ (∀ j < k, res j = false) ∧
        retryWrite res bp (n + 1) 0 = some (List.replicate (k + 1) bp)) ∧
    ((∀ j, res j = false) → ∀ fuel i, retryWrite res bp fuel i = none) := by
  constructor
  · intro n hn
    obtain ⟨k, hk, hs, hf, he⟩ :=
      retryWrite_go res bp (n + 1) 0 ⟨n, Nat.lt_succ_self n, by simpa using hn⟩
    exact ⟨k, by omega, by simpa using hs, fun j hj => by simpa using hf j hj, he⟩
  · intro hall fuel
    induction fuel with
    | zero => intro i; rfl
    | succ fuel ih =>
      intro i
      rw [retryWrite, if_neg (by rw [hall i]; exact Bool.false_ne_true), ih (i + 1)]
      rfl

/-- C5 (code bug): with two single-value field cursors — `f0` at ts 2,
`f1` at ts 1 — and heap array `[f0, f1]` (a legal Go map iteration
order; `heap.Init` is never called and the heap is never re-fixed after
field-loop consumption), `nextPoint` returns a point at ts 2 with only
field `f0`, although cursor `f1`'s next timestamp 1 is strictly
smaller.  The claim requires `curTs` to be the minimum of the cursors'
next timestamps. -/
theorem nextPoint_not_min :
    ((nextPoint { store := [[⟨2, 0⟩], [⟨1, 0⟩]]
                , items := [0, 1]
                , fields := [("f0", 0), ("f1", 1)] }).1
        = some (2, [("f0", ⟨2, 0⟩)])) ∧
    peekId [[⟨2, 0⟩], [⟨1, 0⟩]] 1 = some ⟨1, 0⟩ ∧
    (1 : Int) < 2 :=
  ⟨rfl, rfl, by decide⟩

/-- C8 witness: with the first attempt failing and the second
succeeding, the trace is two copies of the batch. -/
theorem retryWrite_witness :
    ∃ k, k ≤ 1 ∧ (fun j => decide (j = 1)) k = true ∧
      (∀ j < k, (fun j => decide (j = 1)) j = false) ∧
      retryWrite (fun j => decide (j = 1)) (0 : Nat) (1 + 1) 0 =
        some (List.replicate (k + 1) 0) :=
  (retryWrite_spec (fun j => decide (j = 1)) (0 : Nat)).1 1 (by decide)

theorem contains_iff (s : List Char) (c : Char) : s.contains c = true ↔ c ∈ s :=
  List.elem_iff

theorem escSeq_append {bad : Char → Bool} {xs ys : List Char}
    (hx : EscSeq bad xs) (hy : EscSeq bad ys) : EscSeq bad (xs ++ ys) := by
  induction hx with
  | nil => simpa using hy
  | plain hb hbs _ ih => exact EscSeq.plain hb hbs ih
  | esc c _ ih => exact EscSeq.esc c ih

theorem escSeq_escOn (p bad : Char → Bool) (s : List Char)
    (hbs : '\\' ∉ s) (himp : ∀ c, bad c = true → p c = true) :
    EscSeq bad (escOn p s) := by
  induction s with
  | nil => exact EscSeq.nil
  | cons c cs ih =>
    rw [escOn, List.flatMap_cons]
    have hcs : '\\' ∉ cs := fun h => hbs (List.mem_cons_of_mem _ h)
    have hc : c ≠ '\\' := fun h => hbs (by rw [← h]; exact List.mem_cons_self _ _)
    by_cases hp : p c = true
    · rw [if_pos hp]
      exact EscSeq.esc c (ih hcs)
    · rw [if_neg hp]
      refine EscSeq.plain ?_ hc (ih hcs)
      cases hbadc : bad c with
      | false => rfl
      | true => exact absurd (himp c hbadc) hp

theorem segGo_skip {s : List Char} (hs : EscSeq (fun c => c = ',') s) :
    ∀ rest acc, segGo (s ++ rest) false acc = segGo rest false (acc ++ s) := by
  induction hs with
  | nil => intro rest acc; simp
  | @plain c cs hb hbs _ ih =>
    intro rest acc
    rw [List.cons_append, segGo,
      if_neg (fun h => hbs h.2),
      if_neg (by simp),
      if_neg (of_decide_eq_false hb),
      ih rest (acc ++ [c])]
    rw [← List.append_cons]
  | @esc c cs _ ih =>
    intro rest acc
    rw [List.cons_append, List.cons_append, segGo, if_pos ⟨rfl, rfl⟩,
      segGo, if_neg (fun h => by simpa using h.1), if_pos rfl,
      ih rest ((acc ++ ['\\']) ++ [c])]
    congr 1
    simp

theorem segGo_comma (rest acc : List Char) :
    segGo (',' :: rest) false acc = acc :: segGo rest false [] := by
  rw [segGo, if_neg (fun h => by simpa using h.2), if_neg (by simp), if_pos rfl]

theorem eqSplits_skip {s : List Char}
    (hs : EscSeq (fun c => c = ',' || c = '=') s) :
    ∀ rest pre, eqSplits (s ++ rest) false pre = eqSplits rest false (pre ++ s) := by
  induction hs with
  | nil => intro rest pre; simp
  | @plain c cs hb hbs _ ih =>
    intro rest pre
    have hne : ¬ c = '=' := by
      intro h
      rw [h] at hb
      simp at hb
    rw [List.cons_append, eqSplits,
      if_neg (fun h => hbs h.2),
      if_neg (by simp),
      if_neg hne,
      ih rest (pre ++ [c])]
    rw [← List.append_cons]
  | @esc c cs _ ih =>
    intro rest pre
    rw [List.cons_append, List.cons_append, eqSplits, if_pos ⟨rfl, rfl⟩,
      eqSplits, if_neg (fun h => by simpa using h.1), if_pos rfl,
      ih rest ((pre ++ ['\\']) ++ [c])]
    congr 1
    simp

theorem escTag_escSeq_comma (s : List Char) (hbs : '\\' ∉ s) :
    EscSeq (fun c => c = ',') (escTag s) := by
  refine escSeq_escOn reservedB _ s hbs (fun c h => ?_)
  have hc : c = ',' := of_decide_eq_true h
  rw [hc]
  rfl

theorem escTag_escSeq_commaEq (s : List Char) (hbs : '\\' ∉ s) :
    EscSeq (fun c => c = ',' || c = '=') (escTag s) := by
  refine escSeq_escOn reservedB _ s hbs (fun c h => ?_)
  rw [Bool.or_eq_true] at h
  rcases h with h | h
  · rw [of_decide_eq_true h]; rfl
  · rw [of_decide_eq_true h]; rfl

theorem kvChars_escSeq (p : List Char × List Char)
    (h1 : '\\' ∉ p.1) (h2 : '\\' ∉ p.2) :
    EscSeq (fun c => c = ',') (kvChars p) := by
  rw [kvChars]
  refine escSeq_append (escTag_escSeq_comma p.1 h1) ?_
  exact EscSeq.plain (by decide) (by decide) (escTag_escSeq_comma p.2 h2)

theorem eqSplits_kv (k v : List Char) (hk : '\\' ∉ k) (hv : '\\' ∉ v) :
    eqSplits (kvChars (k, v)) false [] = [(escTag k, escTag v)] := by
  rw [kvChars]
  rw [eqSplits_skip (escTag_escSeq_commaEq k hk) ('=' :: escTag v) [],
    List.nil_append, eqSplits,
    if_neg (fun h => by simpa using h.2), if_neg (by simp), if_pos rfl]
  have he : escTag v = escTag v ++ [] := by simp
  rw [he, eqSplits_skip (escTag_escSeq_commaEq v hv) [] (escTag k ++ ['='])]
  rfl

theorem segGo_kvsTail (kvs : List (List Char × List Char))
    (h : ∀ p ∈ kvs, '\\' ∉ p.1 ∧ '\\' ∉ p.2) :
    ∀ cur, segGo (kvs.flatMap (fun p => ',' :: kvChars p) ++ [',']) false cur =
      cur :: kvs.map kvChars := by
  induction kvs with
  | nil =>
    intro cur
    rw [List.flatMap_nil, List.nil_append, segGo_comma]
    rfl
  | cons p rest ih =>
    intro cur
    have hp := h p (List.mem_cons_self _ _)
    have hca : (',' :: kvChars p) ++ (rest.flatMap (fun p => ',' :: kvChars p) ++ [',']) =
        ',' :: (kvChars p ++ (rest.flatMap (fun p => ',' :: kvChars p) ++ [','])) := rfl
    rw [List.flatMap_cons, List.append_assoc, hca, segGo_comma,
      segGo_skip (kvChars_escSeq p hp.1 hp.2), List.nil_append,
      ih (fun q hq => h q (List.mem_cons_of_mem _ hq)) (kvChars p)]
    rfl

theorem segGo_escJoin (m : List Char) (kvs : List (List Char × List Char))
    (hm : MeasOk m) (h : ∀ p ∈ kvs, '\\' ∉ p.1 ∧ '\\' ∉ p.2) :
    segGo (escJoin m kvs ++ [',']) false [] = m :: kvs.map kvChars := by
  rw [escJoin, List.append_assoc, segGo_skip hm, List.nil_append,
    segGo_kvsTail kvs h m]

theorem escOn_mem (p : Char → Bool) (s : List Char) (x : Char) (hx : x ≠ '\\') :
    x ∈ escOn p s ↔ x ∈ s := by
  induction s with
  | nil => simp [escOn]
  | cons c cs ih =>
    rw [escOn, List.flatMap_cons, List.mem_append]
    rw [escOn] at ih
    rw [ih, List.mem_cons]
    by_cases hp : p c = true
    · rw [if_pos hp]
      simp only [List.mem_cons, List.mem_singleton, List.not_mem_nil, or_false]
      constructor
      · rintro ((h | h) | h)
        · exact absurd h hx
        · exact Or.inl h
        · exact Or.inr h
      · rintro (h | h)
        · exact Or.inl (Or.inr h)
        · exact Or.inr h
    · rw [if_neg hp]
      simp only [List.mem_singleton]

theorem escOn_congr (p q : Char → Bool) (s : List Char)
    (h : ∀ c ∈ s, p c = q c) : escOn p s = escOn q s := by
  induction s with
  | nil => rfl
  | cons c cs ih =>
    rw [escOn, escOn, List.flatMap_cons, List.flatMap_cons,
      h c (List.mem_cons_self _ _)]
    have := ih (fun d hd => h d (List.mem_cons_of_mem _ hd))
    rw [escOn, escOn] at this
    rw [this]

theorem escOn_id (p : Char → Bool) (s : List Char)
    (h : ∀ c ∈ s, p c = false) : escOn p s = s := by
  induction s with
  | nil => rfl
  | cons c cs ih =>
    rw [escOn, List.flatMap_cons, if_neg (by rw [h c (List.mem_cons_self _ _)]; simp)]
    have := ih (fun d hd => h d (List.mem_cons_of_mem _ hd))
    rw [escOn] at this
    rw [this]
    rfl

theorem escOn_bs_of_mem (p : Char → Bool) (s : List Char) (c : Char)
    (hc : c ∈ s) (hp : p c = true) : '\\' ∈ escOn p s := by
  induction s with
  | nil => simp at hc
  | cons d ds ih =>
    rw [escOn, List.flatMap_cons, List.mem_append]
    rw [List.mem_cons] at hc
    rcases hc with rfl | hc
    · exact Or.inl (by rw [if_pos hp]; simp)
    · exact Or.inr (by rw [← escOn]; exact ih hc)

theorem replacePair_escOn (p : Char → Bool) (b : Char) (hb : b ≠ '\\')
    (s : List Char) (hbs : '\\' ∉ s) :
    replacePair '\\' b b (escOn p s) = escOn (fun c => p c && !(c = b)) s := by
  rw [replacePair]
  induction s with
  | nil => rfl
  | cons c cs ih =>
    have hcs : '\\' ∉ cs := fun h => hbs (List.mem_cons_of_mem _ h)
    have hc : c ≠ '\\' := fun h => hbs (by rw [← h]; exact List.mem_cons_self _ _)
    rw [escOn, escOn, List.flatMap_cons, List.flatMap_cons]
    have ihcs := ih hcs
    rw [escOn, escOn] at ihcs
    by_cases hp : p c = true
    · rw [if_pos hp]
      by_cases hcb : c = b
      · have hpc : (p c && !(c = b)) = false := by simp [hcb]
        rw [if_neg (by rw [hpc]; simp)]
        show replacePairGo '\\' b b false ('\\' :: c :: cs.flatMap _) = _
        rw [replacePairGo, if_neg (by simp), if_pos rfl,
          replacePairGo, if_pos rfl, if_pos (by rw [hcb]), ihcs, hcb]
        rfl
      · have hpc : (p c && !(c = b)) = true := by simp [hp, hcb]
        rw [if_pos hpc]
        show replacePairGo '\\' b b false ('\\' :: c :: cs.flatMap _) = _
        rw [replacePairGo, if_neg (by simp), if_pos rfl,
          replacePairGo, if_pos rfl, if_neg hcb, if_neg hc, ihcs]
        rfl
    · rw [if_neg hp]
      have hpc : (p c && !(c = b)) = false := by simp [hp]
      rw [if_neg (by rw [hpc]; simp)]
      show replacePairGo '\\' b b false (c :: cs.flatMap _) = _
      rw [replacePairGo, if_neg (by simp), if_neg hc, ihcs]
      rfl

theorem unescStep_escOn (p : Char → Bool) (b : Char) (hb : b ≠ '\\')
    (s : List Char) (hbs : '\\' ∉ s) :
    unescStep b (escOn p s) = escOn (fun c => p c && !(c = b)) s := by
  rw [unescStep]
  by_cases hc : (escOn p s).contains b = true
  · rw [if_pos hc]
    exact replacePair_escOn p b hb s hbs
  · rw [if_neg hc]
    refine escOn_congr p _ s (fun c hcs => ?_)
    have hcb : ¬ c = b := by
      intro h
      exact hc ((contains_iff _ _).mpr ((escOn_mem p s b hb).mpr (h ▸ hcs)))
    simp [hcb]

theorem unescapeTag_escTag (s : List Char) (hbs : '\\' ∉ s) :
    unescapeTag (escTag s) = s := by
  rw [unescapeTag, escTag]
  by_cases hno : (escOn reservedB s).contains '\\' = false
  · rw [if_pos hno]
    refine escOn_id reservedB s (fun c hc => ?_)
    cases hr : reservedB c with
    | false => rfl
    | true =>
      exfalso
      have := escOn_bs_of_mem reservedB s c hc hr
      rw [← contains_iff] at this
      rw [hno] at this
      exact Bool.false_ne_true this
  · rw [if_neg hno]
    rw [unescStep_escOn reservedB ',' (by decide) s hbs,
      unescStep_escOn _ ' ' (by decide) s hbs,
      unescStep_escOn _ '=' (by decide) s hbs]
    refine escOn_id _ s (fun c _ => ?_)
    by_cases h1 : c = ','
    · simp [h1]
    · by_cases h2 : c = ' '
      · simp [h2]
      · by_cases h3 : c = '='
        · simp [h3]
        · have : reservedB c = false := by
            rw [reservedB]
            simp [h1, h2, h3]
          simp [this]

theorem escTag_ne_nil (s : List Char) (h : s ≠ []) : escTag s ≠ [] := by
  cases s with
  | nil => exact absurd rfl h
  | cons c cs =>
    rw [escTag, escOn, List.flatMap_cons]
    by_cases hp : reservedB c = true
    · rw [if_pos hp]; simp
    · rw [if_neg hp]; simp

theorem tagsInsert_fresh (tags : List (List Char × List Char))
    (k v : List Char) (h : k ∉ tags.map Prod.fst) :
    tagsInsert tags k v = tags ++ [(k, v)] := by
  rw [tagsInsert, if_neg]
  intro hany
  rw [List.any_eq_true] at hany
  obtain ⟨p, hp, heq⟩ := hany
  exact h (List.mem_map.mpr ⟨p, hp, of_decide_eq_true heq⟩)

theorem applyKvs_spec :
    ∀ (kvs tags : List (List Char × List Char)),
      (∀ p ∈ kvs, p.1 ≠ [] ∧ p.2 ≠ [] ∧ '\\' ∉ p.1 ∧ '\\' ∉ p.2) →
      (∀ p ∈ kvs, p.1 ∉ tags.map Prod.fst) →
      (kvs.map Prod.fst).Nodup →
      applyKvs (kvs.map kvChars) tags = Except.ok (tags ++ kvs) := by
  intro kvs
  induction kvs with
  | nil =>
    intro tags _ _ _
    rw [List.map_nil, applyKvs]
    simp
  | cons p rest ih =>
    obtain ⟨k, v⟩ := p
    intro tags hwf hfresh hnd
    obtain ⟨hk, hv, hbk, hbv⟩ := hwf (k, v) (List.mem_cons_self _ _)
    have happly : applyEqs (eqSplits (kvChars (k, v)) false []) tags =
        Except.ok (tags ++ [(k, v)]) := by
      rw [eqSplits_kv k v hbk hbv, applyEqs,
        if_neg (by
          rintro (h | h)
          · exact escTag_ne_nil k hk (List.length_eq_zero.mp h)
          · exact escTag_ne_nil v hv (List.length_eq_zero.mp h)),
        unescapeTag_escTag k hbk, unescapeTag_escTag v hbv, applyEqs,
        tagsInsert_fresh tags k v (hfresh (k, v) (List.mem_cons_self _ _))]
    rw [List.map_cons, applyKvs, happly]
    show applyKvs (rest.map kvChars) (tags ++ [(k, v)]) = _
    rw [ih (tags ++ [(k, v)])
      (fun q hq => hwf q (List.mem_cons_of_mem _ hq))
      (fun q hq => by
        rw [List.map_append, List.mem_append]
        rintro (h | h)
        · exact hfresh q (List.mem_cons_of_mem _ hq) h
        · rw [List.map_cons, List.map_nil, List.mem_singleton] at h
          rw [List.map_cons, List.nodup_cons] at hnd
          exact hnd.1 (h ▸ List.mem_map.mpr ⟨q, hq, rfl⟩))
      (by rw [List.map_cons, List.nodup_cons] at hnd; exact hnd.2)]
    simp

/-- C9: for every well-formed series key — an escaped measurement
followed by comma-separated `tagK=tagV` pairs whose raw keys/values are
nonempty, backslash-free and pairwise distinct — `splitMeasurementAndTag`
returns the measurement verbatim (escapes preserved) and the tag pairs
with keys and values unescaped; re-escaping the parsed tags with the
reserved-character set and rejoining with the measurement reproduces
the original key byte-for-byte (in the same tag order, hence a fortiori
modulo tag ordering). -/
theorem splitMeasurementAndTag_roundtrip (m : List Char)
    (kvs : List (List Char × List Char)) (hm : MeasOk m) (hm0 : m ≠ [])
    (hkv : ∀ p ∈ kvs, p.1 ≠ [] ∧ p.2 ≠ [] ∧ '\\' ∉ p.1 ∧ '\\' ∉ p.2)
    (hnd : (kvs.map Prod.fst).Nodup) :
    splitMeasurementAndTag (escJoin m kvs) = Except.ok (m, kvs) ∧
    (splitMeasurementAndTag (escJoin m kvs)).map (fun r => escJoin r.1 r.2) =
      Except.ok (escJoin m kvs) := by
  have hbs : ∀ p ∈ kvs, '\\' ∉ p.1 ∧ '\\' ∉ p.2 :=
    fun p hp => ⟨(hkv p hp).2.2.1, (hkv p hp).2.2.2⟩
  have hmain : splitMeasurementAndTag (escJoin m kvs) = Except.ok (m, kvs) := by
    rw [splitMeasurementAndTag, segGo_escJoin m kvs hm hbs]
    show (if m.length = 0 then _ else _) = _
    rw [if_neg (fun h => hm0 (List.length_eq_zero.mp h))]
    have happ := applyKvs_spec kvs [] hkv (by simp) hnd
    rw [List.nil_append] at happ
    rw [happ]
  exact ⟨hmain, by rw [hmain]; rfl⟩

/-- C9 witness: the key `m\,,t\ k=v\=1\,2` — measurement with an
escaped comma, one tag whose key holds an escaped space and whose value
holds an escaped equals and comma — parses to the escaped measurement
and the single unescaped pair. -/
theorem splitMeasurementAndTag_witness :
    splitMeasurementAndTag
        (escJoin ['m', '\\', ','] [(['t', ' ', 'k'], ['v', '=', '1', ',', '2'])]) =
      Except.ok (['m', '\\', ','], [(['t', ' ', 'k'], ['v', '=', '1', ',', '2'])]) :=
  (splitMeasurementAndTag_roundtrip ['m', '\\', ',']
    [(['t', ' ', 'k'], ['v', '=', '1', ',', '2'])]
    (EscSeq.plain (by decide) (by decide) (EscSeq.esc ',' EscSeq.nil))
    (by decide) (by decide) (by decide)).1

theorem phi_le_len (s : CState) : phi s ≤ s.seeks.length := by
  rw [phi, phiSet]
  calc ((s.seeks.map Location.readMax).filter (fun r => decide (s.readTs < r))).toFinset.card
      ≤ ((s.seeks.map Location.readMax).filter (fun r => decide (s.readTs < r))).length :=
        List.toFinset_card_le _
    _ ≤ (s.seeks.map Location.readMax).length := List.length_filter_le _ _
    _ = s.seeks.length := List.length_map _ _

theorem mem_phiSet (s : CState) (r : Int) :
    r ∈ phiSet s ↔ (∃ l ∈ s.seeks, l.readMax = r) ∧ s.readTs < r := by
  rw [phiSet, List.mem_toFinset, List.mem_filter, List.mem_map]
  simp only [decide_eq_true_eq]

/-- In a list ordered so that satisfying `p` is downward closed, the
`p`-satisfiers form a prefix. -/
theorem filter_eq_takeWhile_mono {α : Type} (p : α → Bool) (l : List α)
    (h : l.Pairwise (fun a b => p b = true → p a = true)) :
    l.filter p = l.takeWhile p := by
  induction l with
  | nil => rfl
  | cons a l ih =>
    rw [List.pairwise_cons] at h
    by_cases hp : p a = true
    · rw [List.filter_cons_of_pos hp, List.takeWhile_cons_of_pos hp, ih h.2]
    · rw [List.filter_cons_of_neg (by simpa using hp), List.takeWhile_cons_of_neg (by simpa using hp)]
      rw [List.filter_eq_nil_iff]
      intro b hb hpb
      exact hp (h.1 b hb hpb)

theorem all_dropWhile_false {α : Type} (p : α → Bool) (l : List α)
    (h : l.Pairwise (fun a b => p b = true → p a = true)) :
    ∀ b ∈ l.dropWhile p, p b = false := by
  induction l with
  | nil => simp
  | cons a l ih =>
    rw [List.pairwise_cons] at h
    by_cases hp : p a = true
    · rw [List.dropWhile_cons_of_pos hp]
      exact ih h.2
    · rw [List.dropWhile_cons_of_neg (by simpa using hp)]
      intro b hb
      rw [List.mem_cons] at hb
      rcases hb with rfl | hb
      · exact Bool.eq_false_iff.mpr (fun hc => hp hc)
      · exact Bool.eq_false_iff.mpr (fun hc => hp (h.1 b hb hc))

theorem foldl_maxTime_cases (l : List Location) (init : Int) :
    (l.foldl (fun ub e => if e.entry.maxTime < ub then e.entry.maxTime else ub) init = init ∨
     ∃ e ∈ l, l.foldl (fun ub e => if e.entry.maxTime < ub then e.entry.maxTime else ub) init
       = e.entry.maxTime) := by
  induction l generalizing init with
  | nil => exact Or.inl rfl
  | cons x rest ih =>
    rw [List.foldl_cons]
    by_cases h : x.entry.maxTime < init
    · rw [if_pos h]
      rcases ih x.entry.maxTime with h' | ⟨e, he, h'⟩
      · exact Or.inr ⟨x, List.mem_cons_self _ _, h'⟩
      · exact Or.inr ⟨e, List.mem_cons_of_mem _ he, h'⟩
    · rw [if_neg h]
      rcases ih init with h' | ⟨e, he, h'⟩
      · exact Or.inl h'
      · exact Or.inr ⟨e, List.mem_cons_of_mem _ he, h'⟩

theorem boundFold_cases (s : CState) (ltr : List Location) :
    boundFold s ltr = s.et ∨ ∃ e ∈ ltr, boundFold s ltr = e.entry.maxTime :=
  foldl_maxTime_cases ltr s.et

theorem filter_full {α : Type} (p : α → Bool) (l : List α)
    (h : (l.filter p).length = l.length) : ∀ a ∈ l, p a = true := by
  induction l with
  | nil => simp
  | cons x rest ih =>
    by_cases hp : p x = true
    · rw [List.filter_cons_of_pos hp] at h
      intro a ha
      rw [List.mem_cons] at ha
      rcases ha with rfl | ha
      · exact hp
      · exact ih (by simpa using h) a ha
    · exfalso
      rw [List.filter_cons_of_neg (by simpa using hp)] at h
      have := List.length_filter_le p rest
      simp only [List.length_cons] at h
      omega

theorem step_facts (s : CState) (hwf : WF s) (hnil : s.seeks ≠ [])
    (het : s.readTs < s.et) :
    s.readTs < upperBound s (locsToRead s) ∧ WF (advance s) ∧
    (advance s).seeks.length + phi (advance s) < s.seeks.length + phi s := by
  obtain ⟨hsorted, hlow, hcond⟩ := hwf
  have hcond' := hcond het
  obtain ⟨l0, rest, hs⟩ : ∃ l0 rest, s.seeks = l0 :: rest := by
    cases h : s.seeks with
    | nil => exact absurd h hnil
    | cons a b => exact ⟨a, b, rfl⟩
  set p : Location → Bool := fun l => decide (l.readMax = s.readTs) with hp
  set tw := rest.takeWhile p with htw
  set dw := rest.dropWhile p with hdw0
  have hrtd : rest = tw ++ dw := (List.takeWhile_append_dropWhile p rest).symm
  have hrest_sorted : rest.Pairwise rmLE := by
    have := hsorted
    rw [hs, List.pairwise_cons] at this
    exact this.2
  have hl0_le : ∀ l ∈ rest, rmLE l0 l := by
    have := hsorted
    rw [hs, List.pairwise_cons] at this
    exact this.1
  have hrest_low : ∀ l ∈ rest, s.readTs ≤ l.readMax := by
    intro l hl
    exact hlow l (by rw [hs]; exact List.mem_cons_of_mem _ hl)
  have hmono : rest.Pairwise (fun a b => p b = true → p a = true) := by
    refine List.Pairwise.imp_of_mem ?_ hrest_sorted
    intro a b ha hb hab hpb
    have hb' : b.readMax = s.readTs := of_decide_eq_true hpb
    have h1 : a.readMax ≤ s.readTs := hb' ▸ hab
    exact decide_eq_true (le_antisymm h1 (hrest_low a ha))
  have hfil : rest.filter p = tw := filter_eq_takeWhile_mono p rest hmono
  have hdwp : ∀ b ∈ dw, p b = false := all_dropWhile_false p rest hmono
  have htwp : ∀ b ∈ tw, p b = true := fun b hb => List.mem_takeWhile_imp hb
  have hltr : locsToRead s = l0 :: tw := by
    rw [locsToRead, hs, ← hp]
    show l0 :: List.filter p rest = l0 :: tw
    rw [hfil]
  have hlen_ltr : (locsToRead s).length = tw.length + 1 := by
    rw [hltr, List.length_cons]
  have hget : s.seeks.get? (locsToRead s).length = dw.head? := by
    rw [hlen_ltr, hs]
    show rest.get? tw.length = dw.head?
    rw [hrtd, List.get?_append_right (le_refl tw.length)]
    simp only [Nat.sub_self]
    cases dw <;> rfl
  have hltr_sub : ∀ e ∈ locsToRead s, e ∈ s.seeks := by
    intro e he
    rw [hltr, List.mem_cons] at he
    rw [hs]
    rcases he with rfl | he
    · exact List.mem_cons_self _ _
    · refine List.mem_cons_of_mem _ ?_
      rw [hrtd]
      exact List.mem_append_left _ he
  have hbf_gt : s.readTs < boundFold s (locsToRead s) := by
    rcases boundFold_cases s (locsToRead s) with h | ⟨e, he, h⟩
    · rw [h]; exact het
    · rw [h]
      have he' := hltr_sub e he
      have h1 := (hcond' e he').1
      have h2 := hlow e he'
      omega
  have hdw_mem : ∀ d ∈ dw, d ∈ s.seeks := by
    intro d hd
    rw [hs]
    refine List.mem_cons_of_mem _ ?_
    rw [hrtd]
    exact List.mem_append_right _ hd
  have hdw_gt : ∀ d ∈ dw, s.readTs < d.readMax := by
    intro d hd
    have h1 := hrest_low d (by rw [hrtd]; exact List.mem_append_right _ hd)
    have h2 : ¬ d.readMax = s.readTs := of_decide_eq_false (hdwp d hd)
    omega
  -- upperBound case analysis
  have hub_cases : (dw = [] ∧ upperBound s (locsToRead s) = boundFold s (locsToRead s)) ∨
      (∃ d dw2, dw = d :: dw2 ∧
        ((d.readMax ≤ boundFold s (locsToRead s) ∧
            upperBound s (locsToRead s) = d.readMax) ∨
         (boundFold s (locsToRead s) < d.readMax ∧
            upperBound s (locsToRead s) = boundFold s (locsToRead s)))) := by
    cases hdwc : dw with
    | nil =>
      refine Or.inl ⟨rfl, ?_⟩
      have : s.seeks.get? (locsToRead s).length = none := by rw [hget, hdwc]; rfl
      rw [upperBound, this]
    | cons d dw2 =>
      refine Or.inr ⟨d, dw2, rfl, ?_⟩
      have hsome : s.seeks.get? (locsToRead s).length = some d := by rw [hget, hdwc]; rfl
      have hub_val : upperBound s (locsToRead s) =
          if d.readMax ≤ boundFold s (locsToRead s) then d.readMax
          else boundFold s (locsToRead s) := by
        rw [upperBound, hsome]
      by_cases hle : d.readMax ≤ boundFold s (locsToRead s)
      · exact Or.inl ⟨hle, by rw [hub_val, if_pos hle]⟩
      · exact Or.inr ⟨lt_of_not_le hle, by rw [hub_val, if_neg hle]⟩
  have hub_gt : s.readTs < upperBound s (locsToRead s) := by
    rcases hub_cases with ⟨_, h⟩ | ⟨d, dw2, hdwc, ⟨_, h⟩ | ⟨_, h⟩⟩
    · rw [h]; exact hbf_gt
    · rw [h]; exact hdw_gt d (by rw [hdwc]; exact List.mem_cons_self _ _)
    · rw [h]; exact hbf_gt
  have hub_le_bf : upperBound s (locsToRead s) ≤ boundFold s (locsToRead s) := by
    rcases hub_cases with ⟨_, h⟩ | ⟨d, dw2, hdwc, ⟨h1, h⟩ | ⟨_, h⟩⟩ <;> rw [h]
    · exact h1
  have hub_le_et : upperBound s (locsToRead s) ≤ s.et :=
    le_trans hub_le_bf (boundFold_le_et _ _)
  have hub_le_dw : ∀ d ∈ dw, upperBound s (locsToRead s) ≤ d.readMax := by
    intro d hd
    rcases hub_cases with ⟨hnil', _⟩ | ⟨d0, dw2, hdwc, hcase⟩
    · rw [hnil'] at hd; simp at hd
    · have hd0 : upperBound s (locsToRead s) ≤ d0.readMax := by
        rcases hcase with ⟨h1, h⟩ | ⟨h1, h⟩ <;> rw [h]
        · exact le_of_lt h1
      rw [hdwc, List.mem_cons] at hd
      rcases hd with rfl | hd
      · exact hd0
      · have hdwsorted : dw.Pairwise rmLE :=
          hrest_sorted.sublist (List.dropWhile_sublist p)
        rw [hdwc, List.pairwise_cons] at hdwsorted
        exact le_trans hd0 (hdwsorted.1 d hd)
  -- decomposition of the update + drop
  have hupd : updateSeeks s.seeks s.readTs (upperBound s (locsToRead s)) =
      { l0 with readMax := upperBound s (locsToRead s) } ::
        (tw.map (fun l => { l with readMax := upperBound s (locsToRead s) }) ++ dw) := by
    rw [updateSeeks.eq_def, hs]
    show { l0 with readMax := upperBound s (locsToRead s) } ::
        rest.map (fun l => if l.readMax = s.readTs
          then { l with readMax := upperBound s (locsToRead s) } else l) = _
    congr 1
    rw [hrtd, List.map_append]
    congr 1
    · refine List.map_congr_left ?_
      intro l hl
      rw [if_pos (of_decide_eq_true (htwp l hl))]
    · rw [List.map_congr_left (fun l hl => if_neg (of_decide_eq_false (hdwp l hl)))]
      simp
  have hadv_seeks : (advance s).seeks =
      dropFinished s.et (updateSeeks s.seeks s.readTs (upperBound s (locsToRead s))) := rfl
  have hadv_rts : (advance s).readTs = upperBound s (locsToRead s) := rfl
  have hadv_et : (advance s).et = s.et := rfl
  -- membership in the advanced seeks
  have hadv_mem : ∀ l ∈ (advance s).seeks,
      (l.readMax = upperBound s (locsToRead s) ∨ l ∈ dw) ∧
      l.readMax < s.et ∧ l.readMax < l.entry.maxTime := by
    intro l hl
    rw [hadv_seeks, dropFinished, List.mem_filter] at hl
    obtain ⟨hmem, hkeep⟩ := hl
    simp only [Bool.and_eq_true, decide_eq_true_eq] at hkeep
    refine ⟨?_, hkeep.1, hkeep.2⟩
    rw [hupd, List.mem_cons] at hmem
    rcases hmem with rfl | hmem
    · exact Or.inl rfl
    · rw [List.mem_append] at hmem
      rcases hmem with hmem | hmem
      · rw [List.mem_map] at hmem
        obtain ⟨a, _, rfl⟩ := hmem
        exact Or.inl rfl
      · exact Or.inr hmem
  have pairwise_const : ∀ (l : List Location) (f : Location → Location),
      (List.map f l).Pairwise rmLE ∨ True := fun _ _ => Or.inr trivial
  have hupd_sorted : (updateSeeks s.seeks s.readTs (upperBound s (locsToRead s))).Pairwise rmLE := by
    rw [hupd, List.pairwise_cons]
    constructor
    · intro x hx
      rw [List.mem_append] at hx
      rcases hx with hx | hx
      · rw [List.mem_map] at hx
        obtain ⟨a, _, rfl⟩ := hx
        exact le_refl _
      · exact hub_le_dw x hx
    · rw [List.pairwise_append]
      refine ⟨?_, hrest_sorted.sublist (List.dropWhile_sublist p), ?_⟩
      · rw [List.pairwise_map]
        exact List.Pairwise.imp (fun _ => le_refl _)
          (List.pairwise_of_forall (fun _ _ => trivial) (l := tw))
      · intro a ha b hb
        rw [List.mem_map] at ha
        obtain ⟨a', _, rfl⟩ := ha
        exact hub_le_dw b hb
  have hadv_wf : WF (advance s) := by
    refine ⟨?_, ?_, ?_⟩
    · rw [hadv_seeks, dropFinished]
      exact hupd_sorted.sublist (List.filter_sublist _)
    · intro l hl
      rw [hadv_rts]
      rcases (hadv_mem l hl).1 with h | h
      · rw [h]
      · exact hub_le_dw l h
    · intro _ l hl
      rw [hadv_et]
      exact ⟨(hadv_mem l hl).2.2, (hadv_mem l hl).2.1⟩
  -- the measure
  have hupd_len : (updateSeeks s.seeks s.readTs (upperBound s (locsToRead s))).length =
      s.seeks.length := by
    rw [hupd, hs, List.length_cons, List.length_cons, List.length_append,
      List.length_map, hrtd, List.length_append]
  have hlen_le : (advance s).seeks.length ≤ s.seeks.length := by
    rw [hadv_seeks, dropFinished, ← hupd_len]
    exact List.length_filter_le _ _
  have hphi_sub : ∀ r ∈ phiSet (advance s),
      r ∈ phiSet s ∧ r ≠ upperBound s (locsToRead s) := by
    intro r hr
    rw [mem_phiSet] at hr
    obtain ⟨⟨l, hl, hlr⟩, hgt⟩ := hr
    rw [hadv_rts] at hgt
    rcases (hadv_mem l hl).1 with h | h
    · exfalso
      rw [hlr] at h
      rw [← h] at hgt
      exact lt_irrefl r hgt
    · refine ⟨?_, ne_of_gt hgt⟩
      rw [mem_phiSet]
      exact ⟨⟨l, hdw_mem l h, hlr⟩, lt_trans hub_gt hgt⟩
  have hphi_le : phi (advance s) ≤ phi s := by
    refine Finset.card_le_card ?_
    intro r hr
    exact (hphi_sub r hr).1
  rcases lt_or_eq_of_le hlen_le with hlt | heq
  · exact ⟨hub_gt, hadv_wf, by omega⟩
  · -- nothing was dropped: upperBound must equal the head watermark of dw
    have hall : ∀ l ∈ updateSeeks s.seeks s.readTs (upperBound s (locsToRead s)),
        decide (l.readMax < s.et ∧ l.readMax < l.entry.maxTime) = true := by
      refine filter_full _ _ ?_
      rw [← dropFinished]
      show (advance s).seeks.length = _
      rw [heq, hupd_len]
    have hu0 : upperBound s (locsToRead s) < s.et ∧
        upperBound s (locsToRead s) < l0.entry.maxTime := by
      have := hall { l0 with readMax := upperBound s (locsToRead s) }
        (by rw [hupd]; exact List.mem_cons_self _ _)
      exact of_decide_eq_true this
    have hnotmax : ∀ e ∈ locsToRead s, upperBound s (locsToRead s) ≠ e.entry.maxTime := by
      intro e he hc
      rw [hltr, List.mem_cons] at he
      rcases he with rfl | he
      · exact absurd hu0.2 (by rw [hc]; exact lt_irrefl _)
      · have := hall { e with readMax := upperBound s (locsToRead s) }
          (by
            rw [hupd, List.mem_cons]
            refine Or.inr (List.mem_append_left _ ?_)
            exact List.mem_map.mpr ⟨e, he, rfl⟩)
        have h2 := (of_decide_eq_true this).2
        rw [hc] at h2
        exact lt_irrefl _ h2
    have hnot_bf : upperBound s (locsToRead s) ≠ boundFold s (locsToRead s) := by
      intro hc
      rcases boundFold_cases s (locsToRead s) with h | ⟨e, he, h⟩
      · rw [h] at hc
        exact absurd hu0.1 (by rw [hc]; exact lt_irrefl _)
      · exact hnotmax e he (by rw [hc, h])
    obtain ⟨d, dw2, hdwc, hub_d⟩ : ∃ d dw2, dw = d :: dw2 ∧
        upperBound s (locsToRead s) = d.readMax := by
      rcases hub_cases with ⟨_, h⟩ | ⟨d, dw2, hdwc, ⟨_, h⟩ | ⟨_, h⟩⟩
      · exact absurd h hnot_bf
      · exact ⟨d, dw2, hdwc, h⟩
      · exact absurd h hnot_bf
    have hub_mem : upperBound s (locsToRead s) ∈ phiSet s := by
      rw [mem_phiSet]
      refine ⟨⟨d, hdw_mem d (by rw [hdwc]; exact List.mem_cons_self _ _), hub_d.symm⟩, hub_gt⟩
    have hphi_lt : phi (advance s) < phi s := by
      have hsub : phiSet (advance s) ⊆ (phiSet s).erase (upperBound s (locsToRead s)) := by
        intro r hr
        rw [Finset.mem_erase]
        exact ⟨(hphi_sub r hr).2, (hphi_sub r hr).1⟩
      calc phi (advance s) ≤ ((phiSet s).erase (upperBound s (locsToRead s))).card :=
            Finset.card_le_card hsub
        _ < phi s := Finset.card_erase_lt_of_mem hub_mem
    exact ⟨hub_gt, hadv_wf, by omega⟩

theorem readBlock_isSome : ∀ (n : Nat) (s : CState), WF s →
    s.seeks.length + phi s ≤ n → ∀ fuel, n < fuel →
    (readBlockFuel fuel s).isSome := by
  intro n
  induction n using Nat.strong_induction_on with
  | _ n ih =>
    intro s hwf hn fuel hfuel
    obtain ⟨fuel2, rfl⟩ : ∃ f, fuel = f + 1 := ⟨fuel - 1, by omega⟩
    rw [readBlockFuel]
    by_cases h1 : s.seeks.isEmpty ∨ s.et ≤ s.readTs
    · rw [if_pos h1]; rfl
    · rw [if_neg h1]
      push_neg at h1
      have hnil : s.seeks ≠ [] := fun hc => h1.1 (by rw [hc]; rfl)
      obtain ⟨hub, hwf2, hdec⟩ := step_facts s hwf hnil h1.2
      rw [if_neg (not_le.mpr hub)]
      by_cases h3 : (bufOf s).isEmpty
      · rw [if_pos h3]
        exact ih (n - 1) (by omega) (advance s) hwf2 (by omega) fuel2 (by omega)
      · rw [if_neg h3]; rfl

theorem readBlock_WF : ∀ (fuel : Nat) (s : CState) (ob : Option (List Value)) (s2 : CState),
    WF s → readBlockFuel fuel s = some (ob, s2) → WF s2 := by
  intro fuel
  induction fuel with
  | zero => intro s ob s2 _ h; simp [readBlockFuel] at h
  | succ fuel ih =>
    intro s ob s2 hwf h
    rw [readBlockFuel] at h
    by_cases h1 : s.seeks.isEmpty ∨ s.et ≤ s.readTs
    · rw [if_pos h1] at h
      obtain rfl : s = s2 := congrArg Prod.snd (Option.some.inj h)
      exact hwf
    · rw [if_neg h1] at h
      push_neg at h1
      have hnil : s.seeks ≠ [] := fun hc => h1.1 (by rw [hc]; rfl)
      obtain ⟨hub, hwf2, hdec⟩ := step_facts s hwf hnil h1.2
      rw [if_neg (not_le.mpr hub)] at h
      by_cases h3 : (bufOf s).isEmpty
      · rw [if_pos h3] at h
        exact ih (advance s) ob s2 hwf2 h
      · rw [if_neg h3] at h
        obtain rfl : advance s = s2 := congrArg Prod.snd (Option.some.inj h)
        exact hwf2

theorem i64wrap_id (x : Int) (h1 : -(2 ^ 63) ≤ x) (h2 : x < 2 ^ 63) :
    i64wrap x = x := by
  rw [i64wrap, Int.emod_eq_of_lt (by omega) (by omega)]
  omega

theorem locations_readMax_eq (files : List TSMFile) (st et : Int)
    (h1 : -(2 ^ 63) < st) (h2 : st < 2 ^ 63) :
    ∀ l ∈ locations files st et, l.readMax = st - 1 := by
  intro l hl
  rw [locations, List.mem_flatMap] at hl
  obtain ⟨fd, _, hl⟩ := hl
  rw [List.mem_map] at hl
  obtain ⟨ie, _, rfl⟩ := hl
  have hwrap : i64wrap (st - 1) = st - 1 := i64wrap_id _ (by omega) (by omega)
  simp only
  rw [if_pos (by rw [hwrap]; omega)]

theorem locations_window (files : List TSMFile) (st et : Int) :
    ∀ l ∈ locations files st et,
      st ≤ l.entry.maxTime ∧ l.entry.minTime ≤ et := by
  intro l hl
  rw [locations, List.mem_flatMap] at hl
  obtain ⟨fd, _, hl⟩ := hl
  rw [List.mem_map] at hl
  obtain ⟨ie, hie, rfl⟩ := hl
  rw [List.mem_filter] at hie
  have := hie.2
  simp only [Bool.and_eq_true, decide_eq_true_eq] at this
  exact ⟨this.1.2, this.2⟩

theorem locations_entry_wf (files : List TSMFile) (st et : Int)
    (hwfent : ∀ fd ∈ files, ∀ e ∈ fd.entries, e.1.minTime ≤ e.1.maxTime) :
    ∀ l ∈ locations files st et, l.entry.minTime ≤ l.entry.maxTime := by
  intro l hl
  rw [locations, List.mem_flatMap] at hl
  obtain ⟨fd, hfd, hl⟩ := hl
  rw [List.mem_map] at hl
  obtain ⟨ie, hie, rfl⟩ := hl
  rw [List.mem_filter] at hie
  exact hwfent fd hfd ie hie.1

theorem initState_WF (files : List TSMFile) (st et : Int)
    (h1 : -(2 ^ 63) < st) (h2 : st < 2 ^ 63)
    (hwfent : ∀ fd ∈ files, ∀ e ∈ fd.entries, e.1.minTime ≤ e.1.maxTime) :
    WF (initState et st (locations files st et)) := by
  have hrm := locations_readMax_eq files st et h1 h2
  have hwin := locations_window files st et
  have hent := locations_entry_wf files st et hwfent
  rw [initState]
  cases hcl : initClamped (locations files st et) with
  | nil => exact ⟨List.Pairwise.nil, by simp, fun _ l hl => by simp at hl⟩
  | cons l0 rest =>
    have hmem_src : ∀ l ∈ l0 :: rest, ∃ l2 ∈ locations files st et,
        l = (if l2.readMax < l2.entry.minTime - 1
             then { l2 with readMax := l2.entry.minTime - 1 } else l2) := by
      intro l hl
      rw [← hcl, initClamped, List.mem_map] at hl
      obtain ⟨l2, hl2, rfl⟩ := hl
      exact ⟨l2, (List.perm_insertionSort mtLE _).subset hl2, rfl⟩
    have hsorted : (l0 :: rest).Pairwise rmLE := by
      rw [← hcl, initClamped]
      rw [List.pairwise_map]
      refine List.Pairwise.imp_of_mem ?_
        (List.sorted_insertionSort mtLE (locations files st et))
      intro a b ha hb hab
      have ha2 := hrm a ((List.perm_insertionSort mtLE _).subset ha)
      have hb2 := hrm b ((List.perm_insertionSort mtLE _).subset hb)
      show (if a.readMax < a.entry.minTime - 1
            then { a with readMax := a.entry.minTime - 1 } else a).readMax ≤
           (if b.readMax < b.entry.minTime - 1
            then { b with readMax := b.entry.minTime - 1 } else b).readMax
      rw [mtLE] at hab
      by_cases hca : a.readMax < a.entry.minTime - 1 <;>
        by_cases hcb : b.readMax < b.entry.minTime - 1 <;>
        simp only [if_pos, if_neg, hca, hcb, if_true, if_false] <;> omega
    refine ⟨hsorted, ?_, ?_⟩
    · intro l hl
      show l0.readMax ≤ l.readMax
      rw [List.mem_cons] at hl
      rcases hl with rfl | hl
      · exact le_refl _
      · exact (List.pairwise_cons.mp hsorted).1 l hl
    · intro hlt l hl
      show l.readMax < l.entry.maxTime ∧ l.readMax < et
      have hlt2 : l0.readMax < et := hlt
      obtain ⟨l2, hl2, rfl⟩ := hmem_src l hl
      have hrm2 := hrm l2 hl2
      have hwin2 := hwin l2 hl2
      have hent2 := hent l2 hl2
      have hst_lt : st - 1 < et := by
        obtain ⟨l3, hl3, heq0⟩ := hmem_src l0 (List.mem_cons_self _ _)
        have hrm3 := hrm l3 hl3
        have hwin3 := hwin l3 hl3
        by_cases hc : l3.readMax < l3.entry.minTime - 1
        · rw [heq0, if_pos hc] at hlt2
          simp only at hlt2
          omega
        · rw [heq0, if_neg hc] at hlt2
          omega
      by_cases hc : l2.readMax < l2.entry.minTime - 1
      · rw [if_pos hc]
        constructor
        · simp only
          omega
        · simp only
          omega
      · rw [if_neg hc]
        constructor
        · omega
        · omega

theorem countP_or_of_disjoint {α : Type} (p q : α → Bool) (l : List α)
    (h : ∀ a ∈ l, ¬(p a = true ∧ q a = true)) :
    l.countP (fun a => p a || q a) = l.countP p + l.countP q := by
  induction l with
  | nil => simp
  | cons x xs ih =>
    have hx := h x (List.mem_cons_self _ _)
    have ih2 := ih (fun a ha => h a (List.mem_cons_of_mem _ ha))
    rw [List.countP_cons, List.countP_cons, List.countP_cons, ih2]
    by_cases hp : p x = true <;> by_cases hq : q x = true
    · exact absurd ⟨hp, hq⟩ hx
    all_goals simp [hp, hq]
    all_goals omega

theorem locsToRead_le_len (s : CState) : (locsToRead s).length ≤ s.seeks.length := by
  cases h : s.seeks with
  | nil =>
    rw [locsToRead, h]
  | cons l0 rest =>
    rw [locsToRead, h]
    show (l0 :: rest.filter (fun l => decide (l.readMax = s.readTs))).length ≤
      (l0 :: rest).length
    rw [List.length_cons, List.length_cons]
    have := List.length_filter_le (fun l => decide (l.readMax = s.readTs)) rest
    omega

/-- The recovery pass yields a well-formed state from *any* scalar
state: re-sorting by `readMax` restores sortedness, the clamp restores
`readTs ≤ readMax`, and the drop loop removes every location whose
watermark reached `MaxTime` or `et`. -/
theorem recover_WF (s : CState) : WF (recover s) := by
  have hseeks : (recover s).seeks =
      dropFinished s.et ((s.seeks.insertionSort rmLE).map
        (fun l => if l.readMax < s.readTs then { l with readMax := s.readTs } else l)) := rfl
  refine ⟨?_, ?_, ?_⟩
  · have hsorted : ((s.seeks.insertionSort rmLE).map
        (fun l => if l.readMax < s.readTs then { l with readMax := s.readTs } else l)).Pairwise
          rmLE := by
      rw [List.pairwise_map]
      refine List.Pairwise.imp_of_mem ?_ (List.sorted_insertionSort rmLE s.seeks)
      intro a b _ _ hab
      show (if a.readMax < s.readTs then { a with readMax := s.readTs } else a).readMax ≤
           (if b.readMax < s.readTs then { b with readMax := s.readTs } else b).readMax
      rw [rmLE] at hab
      by_cases hca : a.readMax < s.readTs <;> by_cases hcb : b.readMax < s.readTs <;>
        simp only [if_pos, if_neg, hca, hcb, if_true, if_false] <;> omega
    rw [hseeks, dropFinished]
    exact hsorted.sublist (List.filter_sublist _)
  · intro l hl
    rw [hseeks, dropFinished, List.mem_filter] at hl
    obtain ⟨hmem, _⟩ := hl
    rw [List.mem_map] at hmem
    obtain ⟨a, _, rfl⟩ := hmem
    show s.readTs ≤ (if a.readMax < s.readTs then { a with readMax := s.readTs } else a).readMax
    by_cases hca : a.readMax < s.readTs <;>
      simp only [if_pos, if_neg, hca, if_true, if_false] <;> omega
  · intro _ l hl
    rw [hseeks, dropFinished, List.mem_filter] at hl
    have h2 := hl.2
    simp only [Bool.and_eq_true, decide_eq_true_eq] at h2
    exact ⟨h2.2, h2.1⟩

theorem recover_len_le (s : CState) : (recover s).seeks.length ≤ s.seeks.length := by
  have hseeks : (recover s).seeks =
      dropFinished s.et ((s.seeks.insertionSort rmLE).map
        (fun l => if l.readMax < s.readTs then { l with readMax := s.readTs } else l)) := rfl
  rw [hseeks, dropFinished]
  refine le_trans (List.length_filter_le _ _) (le_of_eq ?_)
  rw [List.length_map, List.length_insertionSort]

/-- From an *arbitrary* scalar state, an empty-buffer pass with
`upperBound > readTs` never grows `seeks` and strictly decreases
`gauge`: either a finished location is dropped, or nothing is dropped —
then `upperBound` was clamped to the watermark of `seeks[len locsToRead]`,
a location outside the current frontier that the pass pulls into it, so
`locsToRead` strictly grows. -/
theorem estep_gauge (s : CState) (hnil : s.seeks ≠ [])
    (hub_gt : s.readTs < upperBound s (locsToRead s)) :
    (advance s).seeks.length ≤ s.seeks.length ∧ gauge (advance s) < gauge s := by
  obtain ⟨l0, rest, hs⟩ : ∃ l0 rest, s.seeks = l0 :: rest := by
    cases h : s.seeks with
    | nil => exact absurd h hnil
    | cons a b => exact ⟨a, b, rfl⟩
  set p : Location → Bool := fun l => decide (l.readMax = s.readTs) with hp
  have hupd : updateSeeks s.seeks s.readTs (upperBound s (locsToRead s)) =
      { l0 with readMax := upperBound s (locsToRead s) } ::
        rest.map (fun l => if l.readMax = s.readTs
          then { l with readMax := upperBound s (locsToRead s) } else l) := by
    rw [updateSeeks.eq_def, hs]
  have hupd_len : (updateSeeks s.seeks s.readTs (upperBound s (locsToRead s))).length =
      s.seeks.length := by
    rw [hupd, hs, List.length_cons, List.length_cons, List.length_map]
  have hadv_seeks : (advance s).seeks =
      dropFinished s.et (updateSeeks s.seeks s.readTs (upperBound s (locsToRead s))) := rfl
  have hlen_le : (advance s).seeks.length ≤ s.seeks.length := by
    rw [hadv_seeks, dropFinished, ← hupd_len]
    exact List.length_filter_le _ _
  refine ⟨hlen_le, ?_⟩
  have hltr : locsToRead s = l0 :: rest.filter p := by
    rw [locsToRead, hs, ← hp]
  rcases lt_or_eq_of_le hlen_le with hlt | heq
  · -- a location was dropped: the square of the length shrinks past the gauge
    have e1 : ((advance s).seeks.length + 1) * ((advance s).seeks.length + 1) ≤
        s.seeks.length * s.seeks.length :=
      Nat.mul_le_mul (by omega) (by omega)
    have e2 : (s.seeks.length + 1) * (s.seeks.length + 1) =
        s.seeks.length * s.seeks.length + 2 * s.seeks.length + 1 := by ring
    have h2 := locsToRead_le_len s
    rw [gauge, gauge, e2]
    obtain ⟨A, hA⟩ : ∃ n, ((advance s).seeks.length + 1) * ((advance s).seeks.length + 1) = n :=
      ⟨_, rfl⟩
    obtain ⟨B, hB⟩ : ∃ n, s.seeks.length * s.seeks.length = n := ⟨_, rfl⟩
    rw [hA, hB] at e1
    rw [hA, hB]
    omega
  · -- nothing was dropped: the frontier group absorbs seeks[len locsToRead]
    have hall : ∀ l ∈ updateSeeks s.seeks s.readTs (upperBound s (locsToRead s)),
        decide (l.readMax < s.et ∧ l.readMax < l.entry.maxTime) = true := by
      refine filter_full _ _ ?_
      rw [← dropFinished]
      show (advance s).seeks.length = _
      rw [heq, hupd_len]
    have hkeep : (advance s).seeks =
        updateSeeks s.seeks s.readTs (upperBound s (locsToRead s)) := by
      rw [hadv_seeks, dropFinished]
      exact List.filter_eq_self.mpr hall
    have hu0 : upperBound s (locsToRead s) < s.et ∧
        upperBound s (locsToRead s) < l0.entry.maxTime := by
      have := hall { l0 with readMax := upperBound s (locsToRead s) }
        (by rw [hupd]; exact List.mem_cons_self _ _)
      exact of_decide_eq_true this
    have hnotmax : ∀ e ∈ locsToRead s, upperBound s (locsToRead s) ≠ e.entry.maxTime := by
      intro e he hc
      rw [hltr, List.mem_cons] at he
      rcases he with rfl | he
      · exact absurd hu0.2 (by rw [hc]; exact lt_irrefl _)
      · rw [List.mem_filter] at he
        have hpe : e.readMax = s.readTs := of_decide_eq_true he.2
        have := hall { e with readMax := upperBound s (locsToRead s) }
          (by
            rw [hupd, List.mem_cons]
            refine Or.inr (List.mem_map.mpr ⟨e, he.1, ?_⟩)
            rw [if_pos hpe])
        have h2 := (of_decide_eq_true this).2
        rw [hc] at h2
        exact lt_irrefl _ h2
    have hnot_bf : upperBound s (locsToRead s) ≠ boundFold s (locsToRead s) := by
      intro hc
      rcases boundFold_cases s (locsToRead s) with h | ⟨e, he, h⟩
      · rw [h] at hc
        exact absurd hu0.1 (by rw [hc]; exact lt_irrefl _)
      · exact hnotmax e he (by rw [hc, h])
    obtain ⟨x, hgx, hubx⟩ : ∃ x, s.seeks.get? (locsToRead s).length = some x ∧
        upperBound s (locsToRead s) = x.readMax := by
      cases hg : s.seeks.get? (locsToRead s).length with
      | none =>
        exfalso
        apply hnot_bf
        rw [upperBound, hg]
      | some x =>
        have hub_val : upperBound s (locsToRead s) =
            if x.readMax ≤ boundFold s (locsToRead s) then x.readMax
            else boundFold s (locsToRead s) := by
          rw [upperBound, hg]
        by_cases hle : x.readMax ≤ boundFold s (locsToRead s)
        · exact ⟨x, rfl, by rw [hub_val, if_pos hle]⟩
        · exfalso
          apply hnot_bf
          rw [hub_val, if_neg hle]
    have hx_mem : x ∈ rest := by
      have hlen1 : (locsToRead s).length = (rest.filter p).length + 1 := by
        rw [hltr, List.length_cons]
      rw [hs, hlen1, List.get?_cons_succ] at hgx
      exact List.get?_mem hgx
    have hx_rm_gt : s.readTs < x.readMax := by
      rw [← hubx]
      exact hub_gt
    have hadv_ltr : locsToRead (advance s) =
        { l0 with readMax := upperBound s (locsToRead s) } ::
          (rest.map (fun l => if l.readMax = s.readTs
            then { l with readMax := upperBound s (locsToRead s) } else l)).filter
            (fun l => decide (l.readMax = upperBound s (locsToRead s))) := by
      rw [locsToRead, hkeep, hupd]
      rfl
    have hcount : (rest.filter p).length + 1 ≤
        ((rest.map (fun l => if l.readMax = s.readTs
            then { l with readMax := upperBound s (locsToRead s) } else l)).filter
            (fun l => decide (l.readMax = upperBound s (locsToRead s)))).length := by
      rw [← List.countP_eq_length_filter, ← List.countP_eq_length_filter, List.countP_map]
      have hmono : rest.countP (fun a => p a || decide (a.readMax = upperBound s (locsToRead s)))
          ≤ rest.countP ((fun l => decide (l.readMax = upperBound s (locsToRead s))) ∘
              (fun l => if l.readMax = s.readTs
                then { l with readMax := upperBound s (locsToRead s) } else l)) := by
        refine List.countP_mono_left ?_
        intro a _ hpa
        rw [Bool.or_eq_true] at hpa
        show decide ((if a.readMax = s.readTs
          then { a with readMax := upperBound s (locsToRead s) } else a).readMax =
            upperBound s (locsToRead s)) = true
        rcases hpa with hpa | hqa
        · have h1 : a.readMax = s.readTs := of_decide_eq_true hpa
          rw [if_pos h1]
          exact decide_eq_true rfl
        · have h1 : a.readMax = upperBound s (locsToRead s) := of_decide_eq_true hqa
          have h2 : ¬ a.readMax = s.readTs := by
            intro hc
            rw [hc] at h1
            rw [← h1] at hub_gt
            exact lt_irrefl _ hub_gt
          rw [if_neg h2]
          exact hqa
      have hdisj : rest.countP
            (fun a => p a || decide (a.readMax = upperBound s (locsToRead s))) =
          rest.countP p + rest.countP (fun a => decide (a.readMax = upperBound s (locsToRead s))) := by
        refine countP_or_of_disjoint _ _ _ ?_
        rintro a _ ⟨hpa, hqa⟩
        have h1 : a.readMax = s.readTs := of_decide_eq_true hpa
        have h2 : a.readMax = upperBound s (locsToRead s) := of_decide_eq_true hqa
        rw [h1] at h2
        rw [← h2] at hub_gt
        exact lt_irrefl _ hub_gt
      have hqpos : 1 ≤ rest.countP (fun a => decide (a.readMax = upperBound s (locsToRead s))) := by
        refine List.countP_pos_iff.mpr ⟨x, hx_mem, ?_⟩
        exact decide_eq_true hubx.symm
      calc rest.countP p + 1
          ≤ rest.countP p +
              rest.countP (fun a => decide (a.readMax = upperBound s (locsToRead s))) :=
            Nat.add_le_add_left hqpos _
        _ = rest.countP (fun a => p a || decide (a.readMax = upperBound s (locsToRead s))) :=
            hdisj.symm
        _ ≤ _ := hmono
    have hγ'_le : ((rest.map (fun l => if l.readMax = s.readTs
            then { l with readMax := upperBound s (locsToRead s) } else l)).filter
            (fun l => decide (l.readMax = upperBound s (locsToRead s)))).length + 1 ≤
        s.seeks.length := by
      have h0 := locsToRead_le_len (advance s)
      rw [hadv_ltr, List.length_cons, heq] at h0
      exact h0
    have hsq : s.seeks.length + 1 ≤ (s.seeks.length + 1) * (s.seeks.length + 1) :=
      Nat.le_mul_of_pos_left _ (by omega)
    have hglen : (locsToRead (advance s)).length =
        ((rest.map (fun l => if l.readMax = s.readTs
            then { l with readMax := upperBound s (locsToRead s) } else l)).filter
            (fun l => decide (l.readMax = upperBound s (locsToRead s)))).length + 1 := by
      rw [hadv_ltr, List.length_cons]
    have hslen : (locsToRead s).length = (rest.filter p).length + 1 := by
      rw [hltr, List.length_cons]
    rw [gauge, gauge, heq, hglen, hslen]
    obtain ⟨M, hM⟩ : ∃ n, (s.seeks.length + 1) * (s.seeks.length + 1) = n := ⟨_, rfl⟩
    rw [hM] at hsq ⊢
    omega

/-- From *any* scalar state, `readBlock` returns within
`gauge + 2·|seeks| + 3` recursive passes: empty-buffer passes strictly
decrease `gauge`, and a recovery pass lands in a `WF` state drained by
the linear `WF` bound. -/
theorem readBlock_total : ∀ (m : Nat) (s : CState), gauge s ≤ m →
    ∀ fuel, m + 2 * s.seeks.length + 3 ≤ fuel → (readBlockFuel fuel s).isSome := by
  intro m
  induction m using Nat.strong_induction_on with
  | _ m ih =>
    intro s hm fuel hfuel
    obtain ⟨fuel2, rfl⟩ : ∃ g, fuel = g + 1 := ⟨fuel - 1, by omega⟩
    rw [readBlockFuel]
    by_cases h1 : s.seeks.isEmpty ∨ s.et ≤ s.readTs
    · rw [if_pos h1]; rfl
    · rw [if_neg h1]
      push_neg at h1
      have hnil : s.seeks ≠ [] := fun hc => h1.1 (by rw [hc]; rfl)
      by_cases h2 : upperBound s (locsToRead s) ≤ s.readTs
      · rw [if_pos h2]
        have hlen := recover_len_le s
        have hphi := phi_le_len (recover s)
        exact readBlock_isSome (2 * (recover s).seeks.length) (recover s) (recover_WF s)
          (by omega) fuel2 (by omega)
      · rw [if_neg h2]
        push_neg at h2
        obtain ⟨hlen_le, hgdec⟩ := estep_gauge s hnil h2
        by_cases h3 : (bufOf s).isEmpty
        · rw [if_pos h3]
          exact ih (m - 1) (by omega) (advance s) (by omega) fuel2 (by omega)
        · rw [if_neg h3]; rfl

/-- C10: `readBlock`'s self-recursion terminates on every call, with
depth bounded by a function of the number of locations.  Packaged as:
(1) from *any* scalar state — hence every state any cursor ever reaches,
for any planner window including the default
`--start`/`--end` = MinInt64/MaxInt64 — a fuel of
`(|seeks|+1)² + 2·|seeks| + 3` already suffices, i.e. the recursion
bottom of the embedding is never reached: each empty-buffer pass either
drops a finished location or absorbs the next watermark group into the
frontier, and the recovery pass always produces a well-formed state
drained within `2·|seeks| + 1` further passes; (2) whenever the recovery
pass runs and data remains (`readTs < et`, locations left), the
recomputed `upperBound` over the clamped, re-sorted, pruned locations is
strictly greater than `readTs`, so the retry makes progress instead of
recovering again. -/
theorem readBlock_terminates :
    (∀ s : CState, (readBlockFuel (rbBound s.seeks.length) s).isSome) ∧
    (∀ s : CState, (recover s).seeks ≠ [] → s.readTs < s.et →
      s.readTs < upperBound (recover s) (locsToRead (recover s))) := by
  constructor
  · intro s
    have h1 : gauge s ≤ (s.seeks.length + 1) * (s.seeks.length + 1) := by
      rw [gauge]
      exact Nat.sub_le _ _
    refine readBlock_total (gauge s) s (le_refl _) _ ?_
    rw [rbBound]
    obtain ⟨M, hM⟩ : ∃ n, (s.seeks.length + 1) * (s.seeks.length + 1) = n := ⟨_, rfl⟩
    rw [hM] at h1 ⊢
    omega
  · intro s hnil het
    exact (step_facts (recover s) (recover_WF s) hnil het).1

/-- C10 witness: a one-location state is drained within the quadratic
budget, and its recovery pass recomputes an `upperBound` strictly above
`readTs`. -/
theorem readBlock_terminates_witness :
    (readBlockFuel
      (rbBound ({ et := 100, readTs := -1,
                  seeks := [{ entry := { minTime := 0, maxTime := 50 }, readMax := -1,
                              values := [⟨7, 0⟩], tombstones := [] }] } : CState).seeks.length)
      { et := 100, readTs := -1,
        seeks := [{ entry := { minTime := 0, maxTime := 50 }, readMax := -1,
                    values := [⟨7, 0⟩], tombstones := [] }] }).isSome ∧
    ({ et := 100, readTs := -1,
       seeks := [{ entry := { minTime := 0, maxTime := 50 }, readMax := -1,
                   values := [⟨7, 0⟩], tombstones := [] }] } : CState).readTs <
      upperBound
        (recover { et := 100, readTs := -1,
                   seeks := [{ entry := { minTime := 0, maxTime := 50 }, readMax := -1,
                               values := [⟨7, 0⟩], tombstones := [] }] })
        (locsToRead
          (recover { et := 100, readTs := -1,
                     seeks := [{ entry := { minTime := 0, maxTime := 50 }, readMax := -1,
                                 values := [⟨7, 0⟩], tombstones := [] }] })) :=
  ⟨readBlock_terminates.1
    { et := 100, readTs := -1,
      seeks := [{ entry := { minTime := 0, maxTime := 50 }, readMax := -1,
                  values := [⟨7, 0⟩], tombstones := [] }] },
   readBlock_terminates.2
    { et := 100, readTs := -1,
      seeks := [{ entry := { minTime := 0, maxTime := 50 }, readMax := -1,
                  values := [⟨7, 0⟩], tombstones := [] }] }
    (by decide) (by decide)⟩

end DataMigrate
